import Mathlib

/-!
# Verification of the pyflowgraph call-tracing core

A shallow embedding, in Lean 4, of the call-rewriting transformers and the
argument-binding algorithm of `flowgraph/trace/ast_trace.py` and
`flowgraph/trace/ast_transform.py`, together with proofs of the testable
properties stated in the design document.

The embedding models:
* the Python AST fragment the transformers manipulate (`Expr`, `ExprList`,
  `KwList`, `OptExpr`, `Stmt`),
* the `TraceFunctionCalls` transformer (`traceArgument`, `traceFunction`,
  `traceReturn`, `visitCallCore`, and the generic bottom-up traversal
  `visitG` mirroring `ast.NodeTransformer`),
* the `WrapCalls` transformer (`wrapCallsCore`),
* the runtime argument binder `bind_arguments` of both modules, on top of a
  model (`sigBind`) of `inspect.Signature.bind`,
* the runtime call wrapper `make_tracing_call_wrapper`,
* a small executable evaluator (`eval`, `execProg`) for the embedded AST
  fragment, used to state and prove semantic transparency of the rewrite.
-/

/-- A Python exception, reduced to the kinds the modelled code can raise. -/
inductive PyErr where
  /-- `TypeError`, as raised by `Signature.bind` and by calls to
      non-callable or mis-called values. -/
  | typeError (msg : String)
  /-- `NameError` from an unbound name. -/
  | nameError (name : String)
  /-- `AttributeError` from a failed attribute lookup. -/
  | attrError (attr : String)
  /-- Any exception raised by user code inside a callable. -/
  | exc (tag : String)
  deriving DecidableEq, Repr

/-- A runtime value of the embedded language.  Callables implemented by the
host are represented by a name resolved in a function table; the tracer
handle and its three methods are distinguished values. -/
inductive Val where
  | none_
  | int (n : Int)
  | strV (s : String)
  /-- An opaque host object, identified by a tag; its attributes live in an
      attribute table. -/
  | obj (tag : String)
  /-- A callable, identified by its name in the function table. -/
  | fn (name : String)
  /-- The tracer handle (spec §3: single reference to the external observer). -/
  | tracerV
  /-- The bound method `tracer.trace_function`. -/
  | traceFnV
  /-- The bound method `tracer.trace_argument`. -/
  | traceArgV
  /-- The bound method `tracer.trace_return`. -/
  | traceRetV
  | tuple (vs : List Val)
  | dict (kvs : List (String × Val))

/-- The kind of a formal parameter, as in `inspect.Parameter.kind`. -/
inductive PKind where
  | posOnly | posOrKw | varPos | kwOnly | varKw
  deriving DecidableEq, Repr

/-- A formal parameter of an introspectable signature: name, kind, and
optional default (spec §9: `{name, hasDefault, defaultValue, kind}`). -/
structure Param where
  name : String
  kind : PKind
  default : Option Val

mutual
/-- The fragment of the Python `ast` expression language that the
transformers under study manipulate.  `call` carries the two pre-3.5
`starargs`/`kwargs` fields, which are absent (`.none`) in the 3.5+ dialect
where spreads are `starred` positional elements and `None`-named keywords. -/
inductive Expr where
  | name (id : String) : Expr
  | num (n : Int) : Expr
  | strE (s : String) : Expr
  | attribute (value : Expr) (attr : String) : Expr
  | starred (value : Expr) : Expr
  | call (func : Expr) (args : ExprList) (keywords : KwList)
         (starargs : OptExpr) (kwargs : OptExpr) : Expr
  deriving DecidableEq, Repr

/-- A list of argument expressions (`ast.Call.args`). -/
inductive ExprList where
  | nil : ExprList
  | cons (head : Expr) (tail : ExprList) : ExprList
  deriving DecidableEq, Repr

/-- A list of `ast.keyword` nodes; a `none` name is a `**` spread (3.5+). -/
inductive KwList where
  | nil : KwList
  | cons (name : Option String) (value : Expr) (tail : KwList) : KwList
  deriving DecidableEq, Repr

/-- An optional expression (the legacy `starargs`/`kwargs` slots). -/
inductive OptExpr where
  | none : OptExpr
  | some (e : Expr) : OptExpr
  deriving DecidableEq, Repr
end

/-- Length of an argument list. -/
def ExprList.length : ExprList → Nat
  | .nil => 0
  | .cons _ t => t.length + 1

/-- Length of a keyword list. -/
def KwList.length : KwList → Nat
  | .nil => 0
  | .cons _ _ t => t.length + 1

/-- The names of a keyword list, in order. -/
def KwList.names : KwList → List (Option String)
  | .nil => []
  | .cons n _ t => n :: t.names

/-- The element of an argument list at a position, if any. -/
def ExprList.get? : ExprList → Nat → Option Expr
  | .nil, _ => Option.none
  | .cons a _, 0 => Option.some a
  | .cons _ t, i + 1 => t.get? i

/-- The keyword (name and value) at a position, if any. -/
def KwList.get? : KwList → Nat → Option (Option String × Expr)
  | .nil, _ => Option.none
  | .cons n v _, 0 => Option.some (n, v)
  | .cons _ _ t, i + 1 => t.get? i

/-- Whether an expression carries the inline spread marker (`ast.Starred`). -/
def Expr.isStarred : Expr → Bool
  | .starred _ => true
  | _ => false

/-- Model of `to_name` (ast_transform.py, lines 105–115): cast a string or a
`Name` node to a `Name` node; any other argument raises `TypeError`. -/
def to_name : Sum String Expr → Except PyErr Expr
  | .inl s => .ok (.name s)
  | .inr (.name id) => .ok (.name id)
  | .inr _ => .error (.typeError "Argument must be a string or a Name AST node")

/-- Modelled from the spec: the node-construction helper (§2) building an
attribute-reference node.  The sources under study import `to_attribute`
from the transform module, where it is not present. -/
def to_attribute (value : Expr) (attr : String) : Expr :=
  .attribute value attr

/-- Modelled from the spec: the node-construction helper (§2) building a
call node from callee, argument list, keyword list and the legacy spread
slots (absent slots are `.none`).  The sources under study import `to_call`
from the transform module, where it is not present. -/
def to_call (func : Expr) (args : ExprList) (keywords : KwList)
    (starargs kwargs : OptExpr) : Expr :=
  .call func args keywords starargs kwargs

namespace TraceFunctionCalls

/-- Model of `TraceFunctionCalls.trace_method`: an attribute reference to
one of the tracer handle's methods.  The transformer's `self.tracer` field
is passed explicitly. -/
def trace_method (tracer : Expr) (method : String) : Expr :=
  to_attribute tracer method

/-- Model of `TraceFunctionCalls.trace_function`: builds the node
`tracer.trace_function(func, nargs)`. -/
def trace_function (tracer func : Expr) (nargs : Nat) : Expr :=
  to_call (trace_method tracer "trace_function")
    (.cons func (.cons (.num (Int.ofNat nargs)) .nil)) .nil .none .none

/-- Model of `TraceFunctionCalls.trace_argument` (ast_trace.py, lines
103–122).  `hasStarred` is the module-level `ast_has_starred` flag (Python
3.5+).  A starred argument is unpacked, wrapped with `nstars=1`, and the
star is re-applied to the wrapper; the name is appended as a string
argument when truthy (neither `None` nor empty); a non-zero `nstars` is
passed as a keyword. -/
def trace_argument (hasStarred : Bool) (tracer : Expr)
    (argValue : Expr) (argName : Option String) (nstars : Nat) : Expr :=
  let starred := hasStarred && argValue.isStarred
  let argValue := if starred then (match argValue with | .starred v => v | e => e)
                  else argValue
  let nstars := if starred then 1 else nstars
  let args : ExprList := .cons argValue
    (match argName with
     | Option.some s => if s.isEmpty then .nil else .cons (.strE s) .nil
     | Option.none => .nil)
  let keywords : KwList :=
    if nstars ≠ 0 then .cons (Option.some "nstars") (.num (Int.ofNat nstars)) .nil
    else .nil
  let callNode := to_call (trace_method tracer "trace_argument") args keywords .none .none
  if starred then .starred callNode else callNode

/-- Model of `TraceFunctionCalls.trace_return`: builds the node
`tracer.trace_return(return_value)`. -/
def trace_return (tracer returnValue : Expr) : Expr :=
  to_call (trace_method tracer "trace_return") (.cons returnValue .nil) .nil .none .none

/-- The list comprehension `[self.trace_argument(arg) for arg in call.args]`
of `visit_Call`. -/
def wrapArgs (hasStarred : Bool) (tracer : Expr) : ExprList → ExprList
  | .nil => .nil
  | .cons a t =>
      .cons (trace_argument hasStarred tracer a Option.none 0) (wrapArgs hasStarred tracer t)

/-- The keyword comprehension of `visit_Call`: each keyword value is wrapped
with its name, and `nstars=2` when the keyword has no name (a `**` spread). -/
def wrapKeywords (hasStarred : Bool) (tracer : Expr) : KwList → KwList
  | .nil => .nil
  | .cons n v t =>
      .cons n (trace_argument hasStarred tracer v n (if n = Option.none then 2 else 0))
        (wrapKeywords hasStarred tracer t)

/-- Model of the body of `TraceFunctionCalls.visit_Call` (ast_trace.py,
lines 127–150) after its `generic_visit` call: wrap every positional and
keyword argument, count `nargs`, wrap the legacy spread slots when the
dialect has them (adding one to `nargs` for each present slot), and build
`trace_return(trace_function(func, nargs)(...))`.  Identity on non-call
nodes, which the transformer does not visit specially. -/
def visit_Call_core (hasStarred : Bool) (tracer : Expr) : Expr → Expr
  | .call func args keywords starargs kwargs =>
    let args' := wrapArgs hasStarred tracer args
    let keywords' := wrapKeywords hasStarred tracer keywords
    let n0 := args'.length + keywords'.length
    let starargs' : OptExpr :=
      if hasStarred then .none
      else match starargs with
        | .some s => .some (trace_argument hasStarred tracer s Option.none 1)
        | .none => .none
    let kwargs' : OptExpr :=
      if hasStarred then .none
      else match kwargs with
        | .some d => .some (trace_argument hasStarred tracer d Option.none 2)
        | .none => .none
    let n1 := if hasStarred then n0
      else n0 + (match starargs with | .some _ => 1 | .none => 0)
    let n2 := if hasStarred then n1
      else n1 + (match kwargs with | .some _ => 1 | .none => 0)
    trace_return tracer (to_call (trace_function tracer func n2) args' keywords' starargs' kwargs')
  | e => e

end TraceFunctionCalls

namespace WrapCalls

/-- Model of the body of `WrapCalls.visit_Call` (ast_transform.py, lines
93–102) after its `generic_visit` call: the callee becomes the wrapper's
first positional argument, all other arguments pass through; on Python
3.5+ the call is rebuilt without the legacy spread slots.  Identity on
non-call nodes. -/
def visit_Call_core (hasStarred : Bool) (wrapper : Expr) : Expr → Expr
  | .call func args keywords starargs kwargs =>
      if hasStarred then .call wrapper (.cons func args) keywords .none .none
      else .call wrapper (.cons func args) keywords starargs kwargs
  | e => e

end WrapCalls

mutual
/-- Model of `ast.NodeTransformer.visit` for a transformer whose only
node-specific visitor is `visit_Call` with body `self.generic_visit(call);
return handler(call)`: children are rewritten bottom-up and the handler is
applied to every call node (both `TraceFunctionCalls.visit_Call` and
`WrapCalls.visit_Call` have exactly this shape). -/
def visitG (handler : Expr → Expr) : Expr → Expr
  | .name id => .name id
  | .num n => .num n
  | .strE s => .strE s
  | .attribute v a => .attribute (visitG handler v) a
  | .starred v => .starred (visitG handler v)
  | .call f args kws st kw =>
      handler (.call (visitG handler f) (visitGArgs handler args)
        (visitGKws handler kws) (visitGOpt handler st) (visitGOpt handler kw))

/-- Children traversal of `visitG` over an argument list. -/
def visitGArgs (handler : Expr → Expr) : ExprList → ExprList
  | .nil => .nil
  | .cons a t => .cons (visitG handler a) (visitGArgs handler t)

/-- Children traversal of `visitG` over a keyword list. -/
def visitGKws (handler : Expr → Expr) : KwList → KwList
  | .nil => .nil
  | .cons n v t => .cons n (visitG handler v) (visitGKws handler t)

/-- Children traversal of `visitG` over an optional child. -/
def visitGOpt (handler : Expr → Expr) : OptExpr → OptExpr
  | .none => .none
  | .some e => .some (visitG handler e)
end

/-- Model of the state of the node object passed to `visit` after the visit
returns, following the host's `ast.NodeTransformer.generic_visit`, which
replaces every child field in place with the result of visiting that
child.  The returned node of `visit` may be new, but the argument node
itself is left holding the visited children. -/
def visitPost (handler : Expr → Expr) : Expr → Expr
  | .attribute v a => .attribute (visitG handler v) a
  | .starred v => .starred (visitG handler v)
  | .call f args kws st kw =>
      .call (visitG handler f) (visitGArgs handler args)
        (visitGKws handler kws) (visitGOpt handler st) (visitGOpt handler kw)
  | e => e

/-- A minimal statement layer for whole program units: assignments and
expression statements.  `ast.NodeTransformer` reaches the contained
expressions through the generic traversal. -/
inductive Stmt where
  | assign (target : String) (value : Expr)
  | exprStmt (value : Expr)

/-- The rewrite `TraceFunctionCalls(tracer).visit` performs on one
statement of a program unit, in the Python 3.5+ dialect. -/
def rewriteStmt (tracerName : String) : Stmt → Stmt
  | .assign t v =>
      .assign t (visitG (TraceFunctionCalls.visit_Call_core true (.name tracerName)) v)
  | .exprStmt v =>
      .exprStmt (visitG (TraceFunctionCalls.visit_Call_core true (.name tracerName)) v)

/-- The rewrite `TraceFunctionCalls(tracer).visit` performs on a program
unit (a list of statements), in the Python 3.5+ dialect. -/
def rewriteProg (tracerName : String) (prog : List Stmt) : List Stmt :=
  prog.map (rewriteStmt tracerName)

/-- Membership test of a key in a keyword dictionary (`name in kwargs`). -/
def hasKey (kwargs : List (String × Val)) (n : String) : Bool :=
  kwargs.any fun kv => kv.1 = n

/-- Model of `kwargs.pop(name)`: the value and the dictionary without the
first entry named `name`, or nothing when the key is absent. -/
def popKey (kwargs : List (String × Val)) (n : String) :
    Option (Val × List (String × Val)) :=
  match kwargs with
  | [] => Option.none
  | (k, v) :: rest =>
    if k = n then Option.some (v, rest)
    else match popKey rest n with
      | Option.none => Option.none
      | Option.some (w, rest') => Option.some (w, (k, v) :: rest')

/-- Phase 1 of the model of `inspect.Signature.bind`: walk the formal
parameters and the supplied positional arguments together, binding
left-to-right; a `*args` parameter swallows the remaining positionals as a
tuple.  Returns the positionally produced entries together with the
parameters left over for the keyword phase. -/
def bindPosPhase : List Param → List Val → List (String × Val) →
    Except PyErr (List (String × Val) × List Param)
  | [], [], _ => .ok ([], [])
  | p :: rest, [], kwargs =>
    if p.kind = .varPos then .ok ([], rest)
    else if hasKey kwargs p.name then
      if p.kind = .posOnly then
        .error (.typeError "parameter is positional only, but was passed as a keyword")
      else .ok ([], p :: rest)
    else if p.kind = .varKw ∨ p.default.isSome then .ok ([], p :: rest)
    else .error (.typeError ("missing a required argument: " ++ p.name))
  | [], _ :: _, _ => .error (.typeError "too many positional arguments")
  | p :: rest, v :: vs, kwargs =>
    if p.kind = .varKw ∨ p.kind = .kwOnly then
      .error (.typeError "too many positional arguments")
    else if p.kind = .varPos then
      .ok ([(p.name, Val.tuple (v :: vs))], rest)
    else if hasKey kwargs p.name ∧ p.kind ≠ .posOnly then
      .error (.typeError ("multiple values for argument: " ++ p.name))
    else do
      let (acc, remaining) ← bindPosPhase rest vs kwargs
      pure ((p.name, v) :: acc, remaining)

/-- Phase 2 of the model of `inspect.Signature.bind`: walk the remaining
parameters, popping keyword arguments by name; remembers the name of a
`**kwargs` parameter when one is seen.  Returns the keyword-bound entries
(in parameter declaration order), the unconsumed keyword arguments, and
the remembered `**kwargs` parameter name. -/
def bindKwPhase : List Param → List (String × Val) → Option String →
    Except PyErr (List (String × Val) × List (String × Val) × Option String)
  | [], kwargs, kwParam => .ok ([], kwargs, kwParam)
  | p :: rest, kwargs, kwParam =>
    if p.kind = .varKw then bindKwPhase rest kwargs (Option.some p.name)
    else if p.kind = .varPos then bindKwPhase rest kwargs kwParam
    else match popKey kwargs p.name with
      | Option.none =>
        if p.default.isNone then
          .error (.typeError ("missing a required argument: " ++ p.name))
        else bindKwPhase rest kwargs kwParam
      | Option.some (v, kwargs') =>
        if p.kind = .posOnly then
          .error (.typeError "parameter is positional only, but was passed as a keyword")
        else do
          let (acc, rem, kwp) ← bindKwPhase rest kwargs' kwParam
          pure ((p.name, v) :: acc, rem, kwp)

/-- Model of `inspect.Signature.bind(*args, **kwargs).arguments` (stdlib
`inspect`, also `funcsigs` for Python 2): the two phases above, then the
unconsumed keyword arguments go to the `**kwargs` parameter as a dict
entry appended last, or raise `TypeError` when there is no such
parameter.  Note that `.arguments` contains only explicitly bound
arguments: defaults of omitted parameters are never filled in. -/
def sigBind (ps : List Param) (args : List Val) (kwargs : List (String × Val)) :
    Except PyErr (List (String × Val)) := do
  let (acc1, rest) ← bindPosPhase ps args kwargs
  let (acc2, remaining, kwParam) ← bindKwPhase rest kwargs Option.none
  if remaining.isEmpty then pure (acc1 ++ acc2)
  else match kwParam with
    | Option.some n => pure (acc1 ++ acc2 ++ [(n, Val.dict remaining)])
    | Option.none => .error (.typeError "got an unexpected keyword argument")

/-- The opaque fallback shared by both `bind_arguments` implementations:
synthetic positional keys "0", "1", … in call order, then the supplied
keyword entries in supplied order (ast_trace.py lines 69–75,
ast_transform.py lines 64–70). -/
def synthetic (args : List Val) (kwargs : List (String × Val)) : List (String × Val) :=
  (args.enum.map fun iv => (toString iv.1, iv.2)) ++ kwargs

/-- The callable kinds distinguished by `ast_trace.bind_arguments`, one
constructor per branch of the source's runtime type inspection (spec §9
asks exactly for such a closed set of tagged variants). -/
inductive Callable where
  /-- Case 2 (lines 51–61): `inspect.signature(fun)` succeeds and reports
      the given formal parameter list. -/
  | withSig (params : List Param)
  /-- Case 1 (lines 44–49): `inspect.ismethod(fun)` holds and `fun.__self__`
      is not a class — a bound instance method implemented in Python, whose
      underlying `__func__` has the given parameter list (starting with
      `self`). -/
  | boundMethod (receiver : Val) (funcParams : List Param)
  /-- Case 3 (lines 63–67): `inspect.signature` raises `ValueError` and
      `fun.__self__` is an object that is not a module — a method
      implemented in C. -/
  | builtinMethod (receiver : Val)
  /-- Case 4 (lines 69–75): `inspect.signature` raises `ValueError` and
      there is no `__self__` (or it is a module) — a callable implemented
      in C. -/
  | builtinFn

namespace ast_trace

/-- Model of `bind_arguments` (ast_trace.py, lines 37–75).  Case 1 prepends
the receiver and re-resolves against the underlying function; case 2 uses
the signature; cases 3 and 4 build the synthetic mapping, with the
receiver prepended in case 3. -/
def bind_arguments : Callable → List Val → List (String × Val) →
    Except PyErr (List (String × Val))
  | .boundMethod receiver funcParams, args, kwargs =>
      sigBind funcParams (receiver :: args) kwargs
  | .withSig params, args, kwargs => sigBind params args kwargs
  | .builtinMethod receiver, args, kwargs => .ok (synthetic (receiver :: args) kwargs)
  | .builtinFn, args, kwargs => .ok (synthetic args kwargs)

end ast_trace

/-- A callable as seen by the generic tracing wrapper: its introspectable
signature when `inspect.signature(fun)` succeeds, and its runtime
behaviour as a host-level black box from concrete arguments to a value or
a raised failure. -/
structure WrappedFun where
  sig : Option (List Param)
  impl : List Val → List (String × Val) → Except PyErr Val

namespace ast_transform

/-- Model of `bind_arguments` (ast_transform.py, lines 55–74): signature
binding when a signature exists, otherwise the synthetic fallback. -/
def bind_arguments (f : WrappedFun) (args : List Val)
    (kwargs : List (String × Val)) : Except PyErr (List (String × Val)) :=
  match f.sig with
  | Option.none => .ok (synthetic args kwargs)
  | Option.some ps => sigBind ps args kwargs

end ast_transform

/-- An observation delivered to the `on_call` / `on_return` callbacks of
the generic tracing wrapper. -/
inductive TraceEvt where
  | callEvt (arguments : List (String × Val))
  | returnEvt (arguments : List (String × Val)) (returnValue : Val)

/-- Model of the wrapper produced by `make_tracing_call_wrapper`
(ast_transform.py, lines 31–52): bind the arguments, report to `on_call`,
perform the real call, report to `on_return`, return the value; a raised
failure at any point short-circuits the remaining steps and propagates.
The booleans state whether an `on_call` / `on_return` callback was
supplied; the returned list is the sequence of observations delivered to
them. -/
def make_tracing_call_wrapper (onCall onReturn : Bool) (f : WrappedFun)
    (args : List Val) (kwargs : List (String × Val)) :
    Except PyErr Val × List TraceEvt :=
  match ast_transform.bind_arguments f args kwargs with
  | .error e => (.error e, [])
  | .ok arguments =>
    let preEvts := if onCall then [TraceEvt.callEvt arguments] else []
    match f.impl args kwargs with
    | .error e => (.error e, preEvts)
    | .ok rv =>
      (.ok rv, preEvts ++ (if onReturn then [TraceEvt.returnEvt arguments rv] else []))

/-- A variable environment of the traced program. -/
abbrev Env := String → Option Val

/-- The behaviour of the host-implemented callables, as a black box from a
callable's name and its concrete call-time arguments to a value or a
raised failure. -/
abbrev FunTable := String → List Val → List (String × Val) → Except PyErr Val

/-- Attributes of opaque host objects. -/
abbrev AttrTable := String → String → Option Val

/-- Attribute-access semantics: the tracer handle exposes its three
methods; opaque objects are looked up in the attribute table; everything
else fails. -/
def evalAttr (A : AttrTable) (v : Val) (a : String) : Except PyErr Val :=
  match v with
  | .tracerV =>
    if a = "trace_function" then .ok .traceFnV
    else if a = "trace_argument" then .ok .traceArgV
    else if a = "trace_return" then .ok .traceRetV
    else .error (.attrError a)
  | .obj tag =>
    match A tag a with
    | Option.some w => .ok w
    | Option.none => .error (.attrError a)
  | _ => .error (.attrError a)

/-- Call semantics on values.  Host callables defer to the function table.
The three tracer methods follow the tracer-handle contract, modelled from
the spec (§6), the tracer itself being an external collaborator outside
the sources under study: `trace_function(callee, nargs)` returns a wrapper
with the callee's exact behaviour (here the callee itself),
`trace_argument(value, ...)` and `trace_return(value)` return their first
argument unchanged, whatever extra name/nstars arguments accompany it. -/
def applyVal (T : FunTable) (v : Val) (pos : List Val)
    (kws : List (String × Val)) : Except PyErr Val :=
  match v with
  | .fn name => T name pos kws
  | .traceFnV =>
    match pos with
    | f :: _ => .ok f
    | [] => .error (.typeError "trace_function expects a callee")
  | .traceArgV =>
    match pos with
    | a :: _ => .ok a
    | [] => .error (.typeError "trace_argument expects a value")
  | .traceRetV =>
    match pos with
    | a :: _ => .ok a
    | [] => .error (.typeError "trace_return expects a value")
  | _ => .error (.typeError "object is not callable")

mutual
/-- Big-step evaluation of an expression: names, literals, attribute
access, and calls with Python's left-to-right order — callee first, then
positional arguments (splicing starred tuples), then keywords (splicing
unnamed dict spreads). -/
def eval (T : FunTable) (A : AttrTable) (env : Env) : Expr → Except PyErr Val
  | .name id =>
    match env id with
    | Option.some v => .ok v
    | Option.none => .error (.nameError id)
  | .num n => .ok (.int n)
  | .strE s => .ok (.strV s)
  | .attribute e a => do
    let v ← eval T A env e
    evalAttr A v a
  | .starred _ => .error (.typeError "starred expression outside a call")
  | .call f args kws .none .none => do
    let fv ← eval T A env f
    let pos ← evalArgs T A env args
    let kvs ← evalKws T A env kws
    applyVal T fv pos kvs
  | .call _ _ _ _ _ =>
    .error (.typeError "legacy spread slots are not part of this dialect")

/-- Evaluation of a positional argument list to the spliced value list. -/
def evalArgs (T : FunTable) (A : AttrTable) (env : Env) :
    ExprList → Except PyErr (List Val)
  | .nil => .ok []
  | .cons (.starred inner) rest => do
    let v ← eval T A env inner
    match v with
    | .tuple vs => do
      let r ← evalArgs T A env rest
      .ok (vs ++ r)
    | _ => .error (.typeError "argument after * must be a sequence")
  | .cons a rest => do
    let v ← eval T A env a
    let r ← evalArgs T A env rest
    .ok (v :: r)

/-- Evaluation of a keyword list to the spliced name–value list. -/
def evalKws (T : FunTable) (A : AttrTable) (env : Env) :
    KwList → Except PyErr (List (String × Val))
  | .nil => .ok []
  | .cons Option.none v rest => do
    let d ← eval T A env v
    match d with
    | .dict kvs => do
      let r ← evalKws T A env rest
      .ok (kvs ++ r)
    | _ => .error (.typeError "argument after ** must be a mapping")
  | .cons (Option.some n) v rest => do
    let vv ← eval T A env v
    let r ← evalKws T A env rest
    .ok ((n, vv) :: r)
end

mutual
/-- Well-formedness of an expression in the Python 3.5+ dialect, matching
what the host parser can produce: the legacy spread slots are absent from
every call node, and a star marker occurs only directly under a call's
argument list (anywhere else it is a syntax error). -/
def WF : Expr → Bool
  | .name _ => true
  | .num _ => true
  | .strE _ => true
  | .attribute v _ => WF v
  | .starred _ => false
  | .call f args kws st kw =>
    (match st, kw with | .none, .none => true | _, _ => false)
      && WF f && WFArgs args && WFKws kws

/-- Well-formedness of an argument list: elements may carry one star
marker; the expression under the marker is itself star-free on top. -/
def WFArgs : ExprList → Bool
  | .nil => true
  | .cons (.starred v) t => WF v && WFArgs t
  | .cons a t => WF a && WFArgs t

/-- Well-formedness of a keyword list. -/
def WFKws : KwList → Bool
  | .nil => true
  | .cons _ v t => WF v && WFKws t
end

/-- Execution of one statement: an assignment updates the environment, an
expression statement evaluates for effect. -/
def execStmt (T : FunTable) (A : AttrTable) (env : Env) : Stmt → Except PyErr Env
  | .assign t v => do
    let vv ← eval T A env v
    .ok fun s => if s = t then Option.some vv else env s
  | .exprStmt v => do
    let _ ← eval T A env v
    .ok env

/-- Execution of a program unit: the statements in order, threading the
environment; the first raised failure aborts the unit. -/
def execProg (T : FunTable) (A : AttrTable) (env : Env) : List Stmt → Except PyErr Env
  | [] => .ok env
  | s :: rest => do
    let env' ← execStmt T A env s
    execProg T A env' rest

/-- Well-formedness of a statement. -/
def stmtWF : Stmt → Bool
  | .assign _ v => WF v
  | .exprStmt v => WF v

/-- The name a statement assigns to, if any. -/
def stmtTarget : Stmt → Option String
  | .assign t _ => Option.some t
  | .exprStmt _ => Option.none

/-- Number of plain (non-starred) positional argument expressions. -/
def plainCount : ExprList → Nat
  | .nil => 0
  | .cons (.starred _) t => plainCount t
  | .cons _ t => plainCount t + 1

/-- Number of starred (inline spread) positional argument expressions. -/
def starredCount : ExprList → Nat
  | .nil => 0
  | .cons (.starred _) t => starredCount t + 1
  | .cons _ t => starredCount t

/-- Number of named keyword arguments. -/
def namedCount : KwList → Nat
  | .nil => 0
  | .cons (Option.some _) _ t => namedCount t + 1
  | .cons Option.none _ t => namedCount t

/-- Number of unnamed keyword slots (inline `**` spreads, Python 3.5+). -/
def unnamedCount : KwList → Nat
  | .nil => 0
  | .cons Option.none _ t => unnamedCount t + 1
  | .cons (Option.some _) _ t => unnamedCount t

/-- One when a legacy spread slot is present, zero otherwise. -/
def optCount : OptExpr → Nat
  | .none => 0
  | .some _ => 1

/-- The call shapes each dialect's parser can produce: on Python 3.5+ the
legacy slots are absent; before 3.5 there are no starred argument
expressions and no unnamed keyword slots. -/
def dialectOK (hasStarred : Bool) (args : ExprList) (kws : KwList)
    (st kw : OptExpr) : Bool :=
  if hasStarred then (match st, kw with | .none, .none => true | _, _ => false)
  else (starredCount args == 0) && (unnamedCount kws == 0)

/-- Whether an expression contains no call node at all. -/
def noCallE : Expr → Bool
  | .name _ => true
  | .num _ => true
  | .strE _ => true
  | .attribute v _ => noCallE v
  | .starred v => noCallE v
  | .call _ _ _ _ _ => false

/-- Model of `TraceFunctionCalls(tracer).visit(e)` with the tracer handle
designated by a string or by a `Name` node, as `__init__` accepts
(`self.tracer = to_name(tracer)`), in the Python 3.5+ dialect. -/
def TraceFunctionCalls.rewriteWith (tracer : Sum String Expr) (e : Expr) :
    Except PyErr Expr :=
  (to_name tracer).map fun t => visitG (TraceFunctionCalls.visit_Call_core true t) e

/-- Model of `WrapCalls(wrapper).visit(e)`, analogously. -/
def WrapCalls.rewriteWith (wrapper : Sum String Expr) (e : Expr) :
    Except PyErr Expr :=
  (to_name wrapper).map fun w => visitG (WrapCalls.visit_Call_core true w) e


/-- A concrete function table used to witness semantic transparency. -/
def demoT : FunTable := fun n pos _ =>
  if n = "f" then
    match pos with
    | [Val.int a, Val.int b] => Except.ok (Val.int (a + b))
    | _ => Except.error (.typeError "bad args")
  else Except.error (.nameError n)

/-- A concrete attribute table used to witness semantic transparency. -/
def demoA : AttrTable := fun _ _ => Option.none

/-- A concrete environment binding the tracer handle to "t". -/
def demoEnv : Env := fun s =>
  if s = "t" then Option.some Val.tracerV
  else if s = "f" then Option.some (Val.fn "f") else Option.none

/-- A concrete two-statement program unit: `x = f(1, y=2)` then `f(x, 3)`. -/
def demoProg : List Stmt :=
  [.assign "x" (.call (.name "f")
      (.cons (.num 1) .nil) (.cons (Option.some "y") (.num 2) .nil) .none .none),
   .exprStmt (.call (.name "f")
      (.cons (.name "x") (.cons (.num 3) .nil)) .nil .none .none)]

theorem wrapArgs_length (H : Bool) (tr : Expr) :
    (l : ExprList) → (TraceFunctionCalls.wrapArgs H tr l).length = l.length
  | .nil => rfl
  | .cons a t => by
      simp [TraceFunctionCalls.wrapArgs, ExprList.length, wrapArgs_length H tr t]

theorem wrapKeywords_length (H : Bool) (tr : Expr) :
    (l : KwList) → (TraceFunctionCalls.wrapKeywords H tr l).length = l.length
  | .nil => rfl
  | .cons n v t => by
      simp [TraceFunctionCalls.wrapKeywords, KwList.length, wrapKeywords_length H tr t]

theorem wrapKeywords_names (H : Bool) (tr : Expr) :
    (l : KwList) → (TraceFunctionCalls.wrapKeywords H tr l).names = l.names
  | .nil => rfl
  | .cons n v t => by
      simp [TraceFunctionCalls.wrapKeywords, KwList.names, wrapKeywords_names H tr t]

theorem wrapArgs_get? (H : Bool) (tr : Expr) :
    (l : ExprList) → (i : Nat) →
    (TraceFunctionCalls.wrapArgs H tr l).get? i
      = (l.get? i).map fun a => TraceFunctionCalls.trace_argument H tr a Option.none 0
  | .nil, _ => rfl
  | .cons _ _, 0 => rfl
  | .cons _ t, i + 1 => wrapArgs_get? H tr t i

theorem wrapKeywords_get? (H : Bool) (tr : Expr) :
    (l : KwList) → (i : Nat) →
    (TraceFunctionCalls.wrapKeywords H tr l).get? i
      = (l.get? i).map fun nv =>
          (nv.1, TraceFunctionCalls.trace_argument H tr nv.2 nv.1
            (if nv.1 = Option.none then 2 else 0))
  | .nil, _ => rfl
  | .cons _ _ _, 0 => rfl
  | .cons _ _ t, i + 1 => wrapKeywords_get? H tr t i

theorem length_eq_plain_add_starred :
    (l : ExprList) → l.length = plainCount l + starredCount l
  | .nil => rfl
  | .cons a t => by
      cases a <;>
        simp [ExprList.length, plainCount, starredCount,
          length_eq_plain_add_starred t] <;> omega

theorem length_eq_named_add_unnamed :
    (l : KwList) → l.length = namedCount l + unnamedCount l
  | .nil => rfl
  | .cons n v t => by
      cases n <;>
        simp [KwList.length, namedCount, unnamedCount,
          length_eq_named_add_unnamed t] <;> omega

theorem synthetic_length (args : List Val) (kwargs : List (String × Val)) :
    (synthetic args kwargs).length = args.length + kwargs.length := by
  simp [synthetic]

theorem synthetic_keys (args : List Val) (kwargs : List (String × Val)) :
    (synthetic args kwargs).map Prod.fst
      = (List.range args.length).map toString ++ kwargs.map Prod.fst := by
  simp only [synthetic, List.map_append, List.map_map]
  rw [show (Prod.fst ∘ fun iv : Nat × Val => (toString iv.1, iv.2))
        = toString ∘ Prod.fst from rfl]
  rw [← List.map_map, List.enum_map_fst]

/-- C5: for a bound instance method implemented in the host language with
receiver `r` and underlying signature `(self, a)`, `bind_arguments`
prepends the receiver to the positional arguments and re-resolves against
the underlying unbound function, returning the ordered mapping
`{"self": r, "a": a}`. -/
theorem C5_receiver_injection (r a : Val) :
    ast_trace.bind_arguments
      (.boundMethod r [⟨"self", .posOrKw, Option.none⟩, ⟨"a", .posOrKw, Option.none⟩])
      [a] []
      = .ok [("self", r), ("a", a)] := rfl

/-- C4 counterexample: for a non-introspectable bound builtin method (an
opaque callable) called with one positional argument and no keywords, the
code returns two entries — the receiver under key "0" and the argument
under key "1" — not `len(args) + len(kwargs) = 1` entries as the claim
states. -/
theorem C4_counterexample :
    ast_trace.bind_arguments (.builtinMethod (.obj "o")) [.int 1] []
      = .ok [("0", .obj "o"), ("1", .int 1)]
    ∧ [("0", Val.obj "o"), ("1", Val.int 1)].length
        ≠ [Val.int 1].length + ([] : List (String × Val)).length :=
  ⟨rfl, by decide⟩

/-- C4 (amended): `bind_arguments` never raises on non-introspectable
callables.  For a fully opaque callable the mapping has exactly
`len(args) + len(kwargs)` entries — synthetic keys "0", "1", … in call
order followed by the true keyword names in supplied order.  For an opaque
callable with a bound non-module receiver, the receiver is prepended under
key "0", so the mapping has `1 + len(args) + len(kwargs)` entries. -/
theorem C4_opaque_fallback (args : List Val) (kwargs : List (String × Val))
    (receiver : Val) :
    ast_trace.bind_arguments .builtinFn args kwargs = .ok (synthetic args kwargs)
    ∧ (synthetic args kwargs).length = args.length + kwargs.length
    ∧ (synthetic args kwargs).map Prod.fst
        = (List.range args.length).map toString ++ kwargs.map Prod.fst
    ∧ ast_trace.bind_arguments (.builtinMethod receiver) args kwargs
        = .ok (synthetic (receiver :: args) kwargs)
    ∧ (synthetic (receiver :: args) kwargs).length
        = 1 + (args.length + kwargs.length) := by
  refine ⟨rfl, synthetic_length args kwargs, synthetic_keys args kwargs, rfl, ?_⟩
  rw [synthetic_length]
  simp [List.length_cons]
  omega

/-- C7: an argument carrying the inline spread marker is detected, the
inner expression is unwrapped and wrapped in a `trace_argument` call
tagged `nstars=1`, and the marker is re-applied to the wrapped result; a
keyword slot with no name (a `**` spread) is wrapped by `visit_Call` with
`nstars=2`. -/
theorem C7_spread_wrapping (tracer inner v : Expr) (t : KwList)
    (hv : v.isStarred = false) :
    TraceFunctionCalls.trace_argument true tracer (.starred inner) Option.none 0
      = .starred (to_call (TraceFunctionCalls.trace_method tracer "trace_argument")
          (.cons inner .nil) (.cons (Option.some "nstars") (.num 1) .nil) .none .none)
    ∧ TraceFunctionCalls.wrapKeywords true tracer (.cons Option.none v t)
      = .cons Option.none (TraceFunctionCalls.trace_argument true tracer v Option.none 2)
          (TraceFunctionCalls.wrapKeywords true tracer t)
    ∧ TraceFunctionCalls.trace_argument true tracer v Option.none 2
      = to_call (TraceFunctionCalls.trace_method tracer "trace_argument")
          (.cons v .nil) (.cons (Option.some "nstars") (.num 2) .nil) .none .none := by
  refine ⟨rfl, rfl, ?_⟩
  cases v <;> simp_all [TraceFunctionCalls.trace_argument, Expr.isStarred]

/-- Witness for C7 at a concrete spread argument and keyword spread. -/
theorem C7_spread_wrapping_witness :
    TraceFunctionCalls.trace_argument true (.name "t") (.starred (.name "xs"))
        Option.none 0
      = .starred (to_call (TraceFunctionCalls.trace_method (.name "t") "trace_argument")
          (.cons (.name "xs") .nil)
          (.cons (Option.some "nstars") (.num 1) .nil) .none .none)
    ∧ TraceFunctionCalls.wrapKeywords true (.name "t")
        (.cons Option.none (.name "kw") .nil)
      = .cons Option.none
          (TraceFunctionCalls.trace_argument true (.name "t") (.name "kw") Option.none 2)
          (TraceFunctionCalls.wrapKeywords true (.name "t") .nil)
    ∧ TraceFunctionCalls.trace_argument true (.name "t") (.name "kw") Option.none 2
      = to_call (TraceFunctionCalls.trace_method (.name "t") "trace_argument")
          (.cons (.name "kw") .nil)
          (.cons (Option.some "nstars") (.num 2) .nil) .none .none :=
  C7_spread_wrapping (.name "t") (.name "xs") (.name "kw") .nil rfl

/-- C10: when the wrapped callable raises during a call through the wrapper
built by `make_tracing_call_wrapper`, the failure propagates unmodified;
`on_call` has already been invoked with the bound arguments, and
`on_return` is not invoked for that call. -/
theorem C10_failure_propagation (f : WrappedFun) (args : List Val)
    (kwargs : List (String × Val)) (m : List (String × Val)) (e : PyErr)
    (hbind : ast_transform.bind_arguments f args kwargs = .ok m)
    (himpl : f.impl args kwargs = .error e) :
    make_tracing_call_wrapper true true f args kwargs
      = (.error e, [TraceEvt.callEvt m]) := by
  simp [make_tracing_call_wrapper, hbind, himpl]

/-- Witness for C10: a concrete opaque callable that always raises. -/
theorem C10_failure_propagation_witness :
    make_tracing_call_wrapper true true
      ⟨Option.none, fun _ _ => .error (.exc "boom")⟩ [.int 1] []
      = (.error (.exc "boom"), [TraceEvt.callEvt [("0", .int 1)]]) :=
  C10_failure_propagation ⟨Option.none, fun _ _ => .error (.exc "boom")⟩
    [.int 1] [] [("0", .int 1)] (.exc "boom") rfl rfl

theorem visit_Call_core_eq (H : Bool) (tracer f : Expr) (args : ExprList)
    (kws : KwList) (st kw : OptExpr) :
    TraceFunctionCalls.visit_Call_core H tracer (.call f args kws st kw)
      = TraceFunctionCalls.trace_return tracer
          (to_call
            (TraceFunctionCalls.trace_function tracer f
              (if H then args.length + kws.length
               else args.length + kws.length + optCount st + optCount kw))
            (TraceFunctionCalls.wrapArgs H tracer args)
            (TraceFunctionCalls.wrapKeywords H tracer kws)
            (if H then .none
             else match st with
               | .some s => .some (TraceFunctionCalls.trace_argument H tracer s Option.none 1)
               | .none => .none)
            (if H then .none
             else match kw with
               | .some d => .some (TraceFunctionCalls.trace_argument H tracer d Option.none 2)
               | .none => .none)) := by
  cases H <;> cases st <;> cases kw <;>
    simp [TraceFunctionCalls.visit_Call_core, wrapArgs_length, wrapKeywords_length,
      optCount]

/-- C2: the arity `visit_Call` passes to `trace_function` is
`p + k + s1 + s2` for `p` plain positional arguments, `k` named keyword
arguments and spread flags `s1`, `s2` (counted inline on Python 3.5+,
from the legacy slots before); and a call with no arguments yields
`nargs = 0` with no wrapped arguments. -/
theorem C2_arity (hasStarred : Bool) (tracer f : Expr) (args : ExprList)
    (kws : KwList) (st kw : OptExpr) (p k s1 s2 : Nat)
    (hd : dialectOK hasStarred args kws st kw = true)
    (hp : plainCount args = p) (hk : namedCount kws = k)
    (hs1 : (if hasStarred then starredCount args else optCount st) = s1)
    (hs2 : (if hasStarred then unnamedCount kws else optCount kw) = s2) :
    (∃ wargs wkws wst wkw,
      TraceFunctionCalls.visit_Call_core hasStarred tracer (.call f args kws st kw)
        = TraceFunctionCalls.trace_return tracer
            (to_call (TraceFunctionCalls.trace_function tracer f (p + k + s1 + s2))
              wargs wkws wst wkw))
    ∧ TraceFunctionCalls.visit_Call_core hasStarred tracer (.call f .nil .nil .none .none)
        = TraceFunctionCalls.trace_return tracer
            (to_call (TraceFunctionCalls.trace_function tracer f 0) .nil .nil .none .none) := by
  constructor
  · have h1 := length_eq_plain_add_starred args
    have h2 := length_eq_named_add_unnamed kws
    have hN : (if hasStarred then args.length + kws.length
               else args.length + kws.length + optCount st + optCount kw)
        = p + k + s1 + s2 := by
      cases hasStarred <;> simp_all [dialectOK] <;> omega
    refine ⟨TraceFunctionCalls.wrapArgs hasStarred tracer args,
      TraceFunctionCalls.wrapKeywords hasStarred tracer kws,
      (if hasStarred then .none
       else match st with
         | .some s => .some (TraceFunctionCalls.trace_argument hasStarred tracer s Option.none 1)
         | .none => .none),
      (if hasStarred then .none
       else match kw with
         | .some d => .some (TraceFunctionCalls.trace_argument hasStarred tracer d Option.none 2)
         | .none => .none), ?_⟩
    rw [visit_Call_core_eq, hN]
    cases st <;> cases kw <;> rfl
  · cases hasStarred <;> rfl

/-- Witness for C2 on the modern dialect, at a call with one plain
positional argument, one starred spread, one named keyword and one `**`
spread: reported arity 1 + 1 + 1 + 1. -/
theorem C2_arity_witness :
    (∃ wargs wkws wst wkw,
      TraceFunctionCalls.visit_Call_core true (.name "t")
          (.call (.name "g")
            (.cons (.num 1) (.cons (.starred (.name "xs")) .nil))
            (.cons (Option.some "y") (.num 2) (.cons Option.none (.name "d") .nil))
            .none .none)
        = TraceFunctionCalls.trace_return (.name "t")
            (to_call (TraceFunctionCalls.trace_function (.name "t") (.name "g") (1 + 1 + 1 + 1))
              wargs wkws wst wkw))
    ∧ TraceFunctionCalls.visit_Call_core true (.name "t")
        (.call (.name "g") .nil .nil .none .none)
        = TraceFunctionCalls.trace_return (.name "t")
            (to_call (TraceFunctionCalls.trace_function (.name "t") (.name "g") 0)
              .nil .nil .none .none) :=
  C2_arity true (.name "t") (.name "g")
    (.cons (.num 1) (.cons (.starred (.name "xs")) .nil))
    (.cons (Option.some "y") (.num 2) (.cons Option.none (.name "d") .nil))
    .none .none 1 1 1 1 rfl rfl rfl rfl rfl

/-- C6: `visit_Call` produces
`trace_return(trace_function(callee, nargs)(wrapped arguments...))` with
argument count, keyword names, and left-to-right order preserved exactly —
positionals first, then keywords in declaration order — only wrapping
added: the i-th wrapped positional is `trace_argument` of the i-th
original, and the i-th wrapped keyword keeps its name around
`trace_argument` of its value. -/
theorem C6_shape_order (hasStarred : Bool) (tracer f : Expr) (args : ExprList)
    (kws : KwList) :
    TraceFunctionCalls.visit_Call_core hasStarred tracer (.call f args kws .none .none)
      = TraceFunctionCalls.trace_return tracer
          (to_call (TraceFunctionCalls.trace_function tracer f (args.length + kws.length))
            (TraceFunctionCalls.wrapArgs hasStarred tracer args)
            (TraceFunctionCalls.wrapKeywords hasStarred tracer kws) .none .none)
    ∧ (TraceFunctionCalls.wrapArgs hasStarred tracer args).length = args.length
    ∧ (TraceFunctionCalls.wrapKeywords hasStarred tracer kws).names = kws.names
    ∧ (∀ i, (TraceFunctionCalls.wrapArgs hasStarred tracer args).get? i
        = (args.get? i).map fun a =>
            TraceFunctionCalls.trace_argument hasStarred tracer a Option.none 0)
    ∧ (∀ i, (TraceFunctionCalls.wrapKeywords hasStarred tracer kws).get? i
        = (kws.get? i).map fun nv =>
            (nv.1, TraceFunctionCalls.trace_argument hasStarred tracer nv.2 nv.1
              (if nv.1 = Option.none then 2 else 0))) := by
  refine ⟨?_, wrapArgs_length hasStarred tracer args,
    wrapKeywords_names hasStarred tracer kws,
    fun i => wrapArgs_get? hasStarred tracer args i,
    fun i => wrapKeywords_get? hasStarred tracer kws i⟩
  rw [visit_Call_core_eq]
  cases hasStarred <;> simp [optCount]

theorem noCall_visitG (h : Expr → Expr) :
    (e : Expr) → noCallE e = true → visitG h e = e
  | .name _, _ => rfl
  | .num _, _ => rfl
  | .strE _, _ => rfl
  | .attribute v _, hv => by
      simp only [visitG]
      rw [noCall_visitG h v (by simpa [noCallE] using hv)]
  | .starred v, hv => by
      simp only [visitG]
      rw [noCall_visitG h v (by simpa [noCallE] using hv)]
  | .call _ _ _ _ _, hv => by simp [noCallE] at hv

/-- C9: `WrapCalls.visit_Call` replaces `F(args...)` by
`wrapperRef(F, args...)`: the callee becomes the wrapper's first
positional argument and every other positional, keyword and spread
argument passes through in place with no per-argument interception — the
site rewrite adds no wrapping to arguments, the traversal only recurses
into them, and an argument containing no call is left identical. -/
theorem C9_wrap_calls (w f : Expr) (args : ExprList) (kws : KwList)
    (st kw : OptExpr) :
    WrapCalls.visit_Call_core true w (.call f args kws .none .none)
      = .call w (.cons f args) kws .none .none
    ∧ WrapCalls.visit_Call_core false w (.call f args kws st kw)
      = .call w (.cons f args) kws st kw
    ∧ visitG (WrapCalls.visit_Call_core true w) (.call f args kws st kw)
      = WrapCalls.visit_Call_core true w
          (.call (visitG (WrapCalls.visit_Call_core true w) f)
            (visitGArgs (WrapCalls.visit_Call_core true w) args)
            (visitGKws (WrapCalls.visit_Call_core true w) kws)
            (visitGOpt (WrapCalls.visit_Call_core true w) st)
            (visitGOpt (WrapCalls.visit_Call_core true w) kw))
    ∧ (∀ e : Expr, noCallE e = true → visitG (WrapCalls.visit_Call_core true w) e = e) :=
  ⟨rfl, rfl, rfl, fun e he => noCall_visitG _ e he⟩

/-- C8 counterexample: the rewrite does mutate the input tree.  Visiting
the expression `g().x` leaves the input node holding the rewritten call as
its child (the host's `generic_visit` replaces children in place), so the
input after the visit differs from the input before. -/
theorem C8_counterexample :
    visitPost (TraceFunctionCalls.visit_Call_core true (.name "t"))
      (.attribute (.call (.name "g") .nil .nil .none .none) "x")
    ≠ .attribute (.call (.name "g") .nil .nil .none .none) "x" := by decide

/-- C8 (amended): the rewrite of `TraceFunctionCalls` and `WrapCalls` is
deterministic — the output is a function of the input tree and the
tracer-handle name only, and designating the handle by a string or by an
equally named `Name` node yields structurally identical output — but it is
not pure: the traversal replaces the input tree's descendants in place, so
an input with a nested call is mutated (only the returned root is new). -/
theorem C8_deterministic_not_pure :
    (∀ (s : String) (e : Expr),
      TraceFunctionCalls.rewriteWith (.inl s) e
        = TraceFunctionCalls.rewriteWith (.inr (.name s)) e)
    ∧ (∀ (s : String) (e : Expr),
      WrapCalls.rewriteWith (.inl s) e = WrapCalls.rewriteWith (.inr (.name s)) e)
    ∧ (∃ e : Expr,
        visitPost (TraceFunctionCalls.visit_Call_core true (.name "t")) e ≠ e)
    ∧ (∃ e : Expr, visitPost (WrapCalls.visit_Call_core true (.name "w")) e ≠ e) :=
  ⟨fun _ _ => rfl, fun _ _ => rfl,
    ⟨.attribute (.call (.name "g") .nil .nil .none .none) "x", by decide⟩,
    ⟨.attribute (.call (.name "g") .nil .nil .none .none) "x", by decide⟩⟩

theorem exceptBind_ok {α β : Type} (a : α) (f : α → Except PyErr β) :
    (Except.ok a >>= f) = f a := rfl

theorem exceptBind_error {α β : Type} (e : PyErr) (f : α → Except PyErr β) :
    ((Except.error e : Except PyErr α) >>= f) = .error e := rfl

theorem evalArgs_cons_plain (T : FunTable) (A : AttrTable) (env : Env)
    (a : Expr) (ha : a.isStarred = false) (t : ExprList) :
    evalArgs T A env (.cons a t) = (do
      let v ← eval T A env a
      let r ← evalArgs T A env t
      Except.ok (v :: r)) := by
  cases a
  case starred v => simp [Expr.isStarred] at ha
  all_goals rfl

theorem visitG_isStarred (tr : Expr) (e : Expr) :
    (visitG (TraceFunctionCalls.visit_Call_core true tr) e).isStarred = e.isStarred := by
  cases e <;> rfl

theorem WF_not_starred (e : Expr) (h : WF e = true) : e.isStarred = false := by
  cases e <;> simp_all [WF, Expr.isStarred]

theorem eval_trace_argument (T : FunTable) (A : AttrTable) (env : Env) (tr : String)
    (henv : env tr = Option.some .tracerV) (w : Expr) (hw : w.isStarred = false)
    (nm : Option String) (k : Nat) :
    eval T A env (TraceFunctionCalls.trace_argument true (.name tr) w nm k)
      = eval T A env w := by
  simp only [TraceFunctionCalls.trace_argument, hw, Bool.and_false, Bool.false_eq_true,
    if_false, ite_false]
  rcases nm with _ | s
  · cases hev : eval T A env w <;>
      by_cases hk : k = 0 <;>
        simp [hk, eval, to_call, TraceFunctionCalls.trace_method, to_attribute, henv,
          evalAttr, evalArgs_cons_plain T A env w hw, hev, evalArgs, evalKws, applyVal,
          exceptBind_ok, exceptBind_error]
  · cases hev : eval T A env w <;>
      by_cases hk : k = 0 <;> by_cases hs : s.isEmpty <;>
        simp [hk, hs, eval, to_call, TraceFunctionCalls.trace_method, to_attribute, henv,
          evalAttr, evalArgs_cons_plain T A env w hw, hev, evalArgs, evalKws, applyVal,
          exceptBind_ok, exceptBind_error]

theorem trace_argument_not_starred (tracer w : Expr) (hw : w.isStarred = false)
    (nm : Option String) (k : Nat) :
    (TraceFunctionCalls.trace_argument true tracer w nm k).isStarred = false := by
  cases w <;> simp_all [TraceFunctionCalls.trace_argument, Expr.isStarred, to_call]

theorem trace_argument_plain_node (tracer w : Expr) (hw : w.isStarred = false) :
    TraceFunctionCalls.trace_argument true tracer w Option.none 1
      = to_call (TraceFunctionCalls.trace_method tracer "trace_argument")
          (.cons w .nil) (.cons (Option.some "nstars") (.num 1) .nil) .none .none := by
  cases w <;> simp_all [TraceFunctionCalls.trace_argument, Expr.isStarred]

theorem exceptBind_pure {α : Type} (M : Except PyErr α) :
    (M >>= fun x => (Except.ok x : Except PyErr α)) = M := by
  cases M <;> rfl

theorem eval_traced_call_shape (T : FunTable) (A : AttrTable) (env : Env) (tr : String)
    (henv : env tr = Option.some .tracerV) (g : Expr) (hg : g.isStarred = false)
    (wargs : ExprList) (wkws : KwList) (n : Nat) :
    eval T A env (TraceFunctionCalls.trace_return (.name tr)
      (to_call (TraceFunctionCalls.trace_function (.name tr) g n) wargs wkws .none .none))
    = (do
        let fv ← eval T A env g
        let pos ← evalArgs T A env wargs
        let kvs ← evalKws T A env wkws
        applyVal T fv pos kvs) := by
  simp only [TraceFunctionCalls.trace_return, TraceFunctionCalls.trace_function,
    TraceFunctionCalls.trace_method, to_call, to_attribute]
  cases hg' : eval T A env g <;>
    simp [eval, henv, evalAttr, exceptBind_ok, exceptBind_error,
      evalArgs_cons_plain T A env g hg, hg', evalArgs, evalKws, applyVal]
  case ok fv =>
    cases hargs : evalArgs T A env wargs <;>
      simp [exceptBind_ok, exceptBind_error]
    case ok pos =>
      cases hkvs : evalKws T A env wkws <;>
        simp [exceptBind_ok, exceptBind_error]
      case ok kvs =>
        exact exceptBind_pure _

theorem visit_Call_core_true_eq (tracer f : Expr) (args : ExprList) (kws : KwList)
    (st kw : OptExpr) :
    TraceFunctionCalls.visit_Call_core true tracer (.call f args kws st kw)
      = TraceFunctionCalls.trace_return tracer
          (to_call (TraceFunctionCalls.trace_function tracer f (args.length + kws.length))
            (TraceFunctionCalls.wrapArgs true tracer args)
            (TraceFunctionCalls.wrapKeywords true tracer kws) .none .none) := by
  have h := visit_Call_core_eq true tracer f args kws st kw
  simpa using h

theorem WF_call_parts (f : Expr) (args : ExprList) (kws : KwList)
    (h : WF (.call f args kws .none .none) = true) :
    WF f = true ∧ WFArgs args = true ∧ WFKws kws = true := by
  simp only [WF, Bool.and_eq_true] at h
  exact ⟨h.1.1.2, h.1.2, h.2⟩

theorem evalArgs_plain_step (T : FunTable) (A : AttrTable) (env : Env) (tr : String)
    (henv : env tr = Option.some .tracerV) (a : Expr) (ha : a.isStarred = false)
    (w : Expr) (hww : w.isStarred = false)
    (iha : eval T A env w = eval T A env a)
    (wt t : ExprList)
    (iht : evalArgs T A env wt = evalArgs T A env t) :
    evalArgs T A env
        (.cons (TraceFunctionCalls.trace_argument true (.name tr) w Option.none 0) wt)
      = evalArgs T A env (.cons a t) := by
  rw [evalArgs_cons_plain T A env _ (trace_argument_not_starred (.name tr) w hww Option.none 0),
      evalArgs_cons_plain T A env a ha,
      eval_trace_argument T A env tr henv w hww Option.none 0, iha, iht]

theorem evalArgs_star_step (T : FunTable) (A : AttrTable) (env : Env) (tr : String)
    (henv : env tr = Option.some .tracerV) (x w : Expr) (hw : w.isStarred = false)
    (ihx : eval T A env w = eval T A env x)
    (wt t : ExprList)
    (iht : evalArgs T A env wt = evalArgs T A env t) :
    evalArgs T A env
        (.cons (TraceFunctionCalls.trace_argument true (.name tr) (.starred w) Option.none 0) wt)
      = evalArgs T A env (.cons (.starred x) t) := by
  have h1 : TraceFunctionCalls.trace_argument true (.name tr) (.starred w) Option.none 0
      = .starred (TraceFunctionCalls.trace_argument true (.name tr) w Option.none 1) := by
    rw [trace_argument_plain_node (.name tr) w hw]
    rfl
  rw [h1]
  simp only [evalArgs]
  simp only [eval_trace_argument T A env tr henv w hw Option.none 1, ihx, iht]

theorem evalKws_named_step (T : FunTable) (A : AttrTable) (env : Env) (tr : String)
    (henv : env tr = Option.some .tracerV) (nm : String) (v w : Expr)
    (hw : w.isStarred = false)
    (ihv : eval T A env w = eval T A env v) (wt t : KwList)
    (iht : evalKws T A env wt = evalKws T A env t) :
    evalKws T A env (.cons (Option.some nm)
        (TraceFunctionCalls.trace_argument true (.name tr) w (Option.some nm) 0) wt)
      = evalKws T A env (.cons (Option.some nm) v t) := by
  simp only [evalKws]
  simp only [eval_trace_argument T A env tr henv w hw (Option.some nm) 0, ihv, iht]

theorem evalKws_unnamed_step (T : FunTable) (A : AttrTable) (env : Env) (tr : String)
    (henv : env tr = Option.some .tracerV) (v w : Expr)
    (hw : w.isStarred = false)
    (ihv : eval T A env w = eval T A env v) (wt t : KwList)
    (iht : evalKws T A env wt = evalKws T A env t) :
    evalKws T A env (.cons Option.none
        (TraceFunctionCalls.trace_argument true (.name tr) w Option.none 2) wt)
      = evalKws T A env (.cons Option.none v t) := by
  simp only [evalKws]
  simp only [eval_trace_argument T A env tr henv w hw Option.none 2, ihv, iht]

mutual
theorem evalVisit (T : FunTable) (A : AttrTable) (env : Env) (tr : String)
    (henv : env tr = Option.some .tracerV) :
    (e : Expr) → WF e = true →
    eval T A env (visitG (TraceFunctionCalls.visit_Call_core true (.name tr)) e)
      = eval T A env e
  | .name _, _ => rfl
  | .num _, _ => rfl
  | .strE _, _ => rfl
  | .attribute v _, h => by
      have ih := evalVisit T A env tr henv v (by simpa [WF] using h)
      simp only [visitG, eval, ih]
  | .starred _, h => by simp [WF] at h
  | .call f args kws .none .none, h => by
      obtain ⟨hf, hargs, hkws⟩ := WF_call_parts f args kws h
      simp only [visitG, visitGOpt]
      rw [visit_Call_core_true_eq]
      rw [eval_traced_call_shape T A env tr henv _
        (by rw [visitG_isStarred]; exact WF_not_starred f hf) _ _ _]
      rw [evalVisit T A env tr henv f hf]
      simp only [evalVisitArgs T A env tr henv args hargs,
        evalVisitKws T A env tr henv kws hkws]
      rfl
  | .call _ _ _ .none (.some _), h => by simp [WF] at h
  | .call _ _ _ (.some _) _, h => by simp [WF] at h

theorem evalVisitArgs (T : FunTable) (A : AttrTable) (env : Env) (tr : String)
    (henv : env tr = Option.some .tracerV) :
    (l : ExprList) → WFArgs l = true →
    evalArgs T A env (TraceFunctionCalls.wrapArgs true (.name tr)
        (visitGArgs (TraceFunctionCalls.visit_Call_core true (.name tr)) l))
      = evalArgs T A env l
  | .nil, _ => rfl
  | .cons (.starred x) t, h => by
      obtain ⟨hx, ht⟩ : WF x = true ∧ WFArgs t = true := by
        simpa [WFArgs] using h
      simp only [visitGArgs, visitG, TraceFunctionCalls.wrapArgs]
      exact evalArgs_star_step T A env tr henv x _
        (by rw [visitG_isStarred]; exact WF_not_starred x hx)
        (evalVisit T A env tr henv x hx) _ t
        (evalVisitArgs T A env tr henv t ht)
  | .cons (.name s) t, h => by
      obtain ⟨hh, ht⟩ : WF (Expr.name s) = true ∧ WFArgs t = true := by
        simpa [WFArgs] using h
      simp only [visitGArgs, TraceFunctionCalls.wrapArgs]
      exact evalArgs_plain_step T A env tr henv (.name s) rfl _
        (by rw [visitG_isStarred]; rfl)
        (evalVisit T A env tr henv (.name s) hh) _ t
        (evalVisitArgs T A env tr henv t ht)
  | .cons (.num n) t, h => by
      obtain ⟨hh, ht⟩ : WF (Expr.num n) = true ∧ WFArgs t = true := by
        simpa [WFArgs] using h
      simp only [visitGArgs, TraceFunctionCalls.wrapArgs]
      exact evalArgs_plain_step T A env tr henv (.num n) rfl _
        (by rw [visitG_isStarred]; rfl)
        (evalVisit T A env tr henv (.num n) hh) _ t
        (evalVisitArgs T A env tr henv t ht)
  | .cons (.strE s) t, h => by
      obtain ⟨hh, ht⟩ : WF (Expr.strE s) = true ∧ WFArgs t = true := by
        simpa [WFArgs] using h
      simp only [visitGArgs, TraceFunctionCalls.wrapArgs]
      exact evalArgs_plain_step T A env tr henv (.strE s) rfl _
        (by rw [visitG_isStarred]; rfl)
        (evalVisit T A env tr henv (.strE s) hh) _ t
        (evalVisitArgs T A env tr henv t ht)
  | .cons (.attribute v a) t, h => by
      obtain ⟨hh, ht⟩ : WF (Expr.attribute v a) = true ∧ WFArgs t = true := by
        simpa [WFArgs] using h
      simp only [visitGArgs, TraceFunctionCalls.wrapArgs]
      exact evalArgs_plain_step T A env tr henv (.attribute v a) rfl _
        (by rw [visitG_isStarred]; rfl)
        (evalVisit T A env tr henv (.attribute v a) hh) _ t
        (evalVisitArgs T A env tr henv t ht)
  | .cons (.call f as ks st kw) t, h => by
      obtain ⟨hh, ht⟩ : WF (Expr.call f as ks st kw) = true ∧ WFArgs t = true := by
        simpa [WFArgs] using h
      simp only [visitGArgs, TraceFunctionCalls.wrapArgs]
      exact evalArgs_plain_step T A env tr henv (.call f as ks st kw) rfl _
        (by rw [visitG_isStarred]; rfl)
        (evalVisit T A env tr henv (.call f as ks st kw) hh) _ t
        (evalVisitArgs T A env tr henv t ht)

theorem evalVisitKws (T : FunTable) (A : AttrTable) (env : Env) (tr : String)
    (henv : env tr = Option.some .tracerV) :
    (l : KwList) → WFKws l = true →
    evalKws T A env (TraceFunctionCalls.wrapKeywords true (.name tr)
        (visitGKws (TraceFunctionCalls.visit_Call_core true (.name tr)) l))
      = evalKws T A env l
  | .nil, _ => rfl
  | .cons (Option.some nm) v t, h => by
      obtain ⟨hv, ht⟩ : WF v = true ∧ WFKws t = true := by
        simpa [WFKws] using h
      simp only [visitGKws, TraceFunctionCalls.wrapKeywords]
      exact evalKws_named_step T A env tr henv nm v _
        (by rw [visitG_isStarred]; exact WF_not_starred v hv)
        (evalVisit T A env tr henv v hv) _ t
        (evalVisitKws T A env tr henv t ht)
  | .cons Option.none v t, h => by
      obtain ⟨hv, ht⟩ : WF v = true ∧ WFKws t = true := by
        simpa [WFKws] using h
      simp only [visitGKws, TraceFunctionCalls.wrapKeywords]
      exact evalKws_unnamed_step T A env tr henv v _
        (by rw [visitG_isStarred]; exact WF_not_starred v hv)
        (evalVisit T A env tr henv v hv) _ t
        (evalVisitKws T A env tr henv t ht)
end

theorem execStmt_preserves (T : FunTable) (A : AttrTable) (env : Env) (s : Stmt)
    (env' : Env) (hs : execStmt T A env s = .ok env') (n : String)
    (hn : stmtTarget s ≠ Option.some n) : env' n = env n := by
  cases s
  case assign tgt v =>
    have htgt : ¬(n = tgt) := by
      intro hh
      exact hn (by simp [stmtTarget, hh])
    simp only [execStmt] at hs
    cases hev : eval T A env v <;> rw [hev] at hs
    · exact absurd hs (by simp [exceptBind_error])
    · simp only [exceptBind_ok, Except.ok.injEq] at hs
      rw [← hs]
      simp [htgt]
  case exprStmt v =>
    simp only [execStmt] at hs
    cases hev : eval T A env v <;> rw [hev] at hs
    · exact absurd hs (by simp [exceptBind_error])
    · simp only [exceptBind_ok, Except.ok.injEq] at hs
      rw [← hs]

theorem execStmt_visit (T : FunTable) (A : AttrTable) (env : Env) (tr : String)
    (henv : env tr = Option.some Val.tracerV)
    (s : Stmt) (hwf : stmtWF s = true) :
    execStmt T A env (rewriteStmt tr s) = execStmt T A env s := by
  cases s
  case assign tgt v =>
    simp only [stmtWF] at hwf
    simp only [rewriteStmt, execStmt]
    rw [evalVisit T A env tr henv v hwf]
  case exprStmt v =>
    simp only [stmtWF] at hwf
    simp only [rewriteStmt, execStmt]
    rw [evalVisit T A env tr henv v hwf]

/-- C1: semantic transparency.  For every program unit, executing the unit
produced by the `TraceFunctionCalls` rewrite yields the same resulting
environment and raises the same failures as executing the original unit,
for any host callables and attribute tables, assuming the tracer's
`trace_function`, `trace_argument` and `trace_return` return/propagate
their values unchanged (the modelled tracer-handle contract), the
injected tracer name is bound to the tracer handle, and the unit neither
rebinds that name nor uses the legacy spread slots. -/
theorem C1_semantic_transparency (T : FunTable) (A : AttrTable) (tr : String) :
    (prog : List Stmt) → (env : Env) → env tr = Option.some .tracerV →
    (∀ s ∈ prog, stmtWF s = true) →
    (∀ s ∈ prog, stmtTarget s ≠ Option.some tr) →
    execProg T A env (rewriteProg tr prog) = execProg T A env prog
  | [], _, _, _, _ => rfl
  | s :: rest, env, henv, hwf, hfresh => by
      simp only [rewriteProg, List.map_cons, execProg]
      rw [execStmt_visit T A env tr henv s (hwf s (List.mem_cons_self s rest))]
      cases hs : execStmt T A env s
      case error e => simp [exceptBind_error]
      case ok env' =>
        simp only [exceptBind_ok]
        have henv' : env' tr = Option.some Val.tracerV := by
          rw [execStmt_preserves T A env s env' hs tr
            (hfresh s (List.mem_cons_self s rest))]
          exact henv
        exact C1_semantic_transparency T A tr rest env' henv'
          (fun x hx => hwf x (List.mem_cons_of_mem s hx))
          (fun x hx => hfresh x (List.mem_cons_of_mem s hx))

/-- Witness for C1 on a concrete program, environment and function table. -/
theorem C1_semantic_transparency_witness :
    execProg demoT demoA demoEnv (rewriteProg "t" demoProg)
      = execProg demoT demoA demoEnv demoProg :=
  C1_semantic_transparency demoT demoA "t" demoProg demoEnv rfl
    (by decide) (by decide)

theorem hasKey_iff (kwargs : List (String × Val)) (n : String) :
    hasKey kwargs n = true ↔ n ∈ kwargs.map Prod.fst := by
  simp [hasKey, List.any_eq_true, List.mem_map]

theorem popKey_found :
    (kwargs : List (String × Val)) → (n : String) → (v : Val) →
    (kw' : List (String × Val)) →
    popKey kwargs n = Option.some (v, kw') → hasKey kwargs n = true
  | [], n, v, kw', h => by simp [popKey] at h
  | kv :: t, n, v, kw', h => by
      have hck : hasKey (kv :: t) n = (decide (kv.1 = n) || hasKey t n) := rfl
      simp only [popKey] at h
      by_cases he : kv.1 = n
      · rw [hck, decide_eq_true he, Bool.true_or]
      · rw [if_neg he] at h
        cases hrec : popKey t n <;> rw [hrec] at h
        · simp at h
        · rename_i p
          have ht : hasKey t n = true := popKey_found t n p.1 p.2 (by rw [hrec])
          rw [hck, ht, Bool.or_true]

theorem popKey_subset :
    (kwargs : List (String × Val)) → (n : String) → (v : Val) →
    (kw' : List (String × Val)) →
    popKey kwargs n = Option.some (v, kw') →
    ∀ m : String, hasKey kw' m = true → hasKey kwargs m = true
  | [], n, v, kw', h => by simp [popKey] at h
  | kv :: t, n, v, kw', h => by
      intro m hm
      have hck : hasKey (kv :: t) m = (decide (kv.1 = m) || hasKey t m) := rfl
      simp only [popKey] at h
      by_cases he : kv.1 = n
      · rw [if_pos he] at h
        simp only [Option.some.injEq, Prod.mk.injEq] at h
        rw [hck]
        rw [← h.2] at hm
        rw [hm, Bool.or_true]
      · rw [if_neg he] at h
        cases hrec : popKey t n <;> rw [hrec] at h
        · simp at h
        · rename_i p
          simp only [Option.some.injEq, Prod.mk.injEq] at h
          rw [← h.2] at hm
          have hm' : hasKey (kv :: p.2) m = (decide (kv.1 = m) || hasKey p.2 m) := rfl
          rw [hm'] at hm
          rcases Bool.or_eq_true_iff.mp hm with h1 | h2
          · rw [hck, h1, Bool.true_or]
          · have := popKey_subset t n p.1 p.2 (by rw [hrec]) m h2
            rw [hck, this, Bool.or_true]

theorem bindPosPhase_split :
    (ps : List Param) → (args : List Val) → (kwargs : List (String × Val)) →
    (acc : List (String × Val)) → (rest : List Param) →
    bindPosPhase ps args kwargs = .ok (acc, rest) →
    ∃ pre, ps = pre ++ rest
      ∧ List.Sublist (acc.map Prod.fst) (pre.map Param.name)
      ∧ (∀ p ∈ pre, p.kind ≠ PKind.varKw)
      ∧ (∀ nm ∈ acc.map Prod.fst,
          ∃ p ∈ pre, p.name = nm ∧ p.kind ≠ PKind.kwOnly ∧ p.kind ≠ PKind.varKw)
      ∧ (∀ p ∈ pre, p.name ∈ acc.map Prod.fst ∨ p.kind = PKind.varPos)
      ∧ (∀ nm ∈ acc.map Prod.fst, nm ∈ (ps.take args.length).map Param.name)
  | [], [], kwargs, acc, rest, h => by
      simp only [bindPosPhase, Except.ok.injEq, Prod.mk.injEq] at h
      obtain ⟨h1, h2⟩ := h
      subst h1; subst h2
      exact ⟨[], by simp, by simp, by simp, by simp, by simp, by simp⟩
  | p :: ps', [], kwargs, acc, rest, h => by
      simp only [bindPosPhase] at h
      by_cases hc1 : p.kind = PKind.varPos
      · rw [if_pos hc1] at h
        simp only [Except.ok.injEq, Prod.mk.injEq] at h
        obtain ⟨h1, h2⟩ := h
        subst h1; subst h2
        refine ⟨[p], by simp, by simp, ?_, by simp, ?_, by simp⟩
        · intro q hq
          simp at hq
          subst hq
          rw [hc1]
          simp
        · intro q hq
          simp at hq
          subst hq
          exact Or.inr hc1
      · rw [if_neg hc1] at h
        by_cases hc2 : hasKey kwargs p.name = true
        · rw [if_pos hc2] at h
          by_cases hc3 : p.kind = PKind.posOnly
          · rw [if_pos hc3] at h
            simp at h
          · rw [if_neg hc3] at h
            simp only [Except.ok.injEq, Prod.mk.injEq] at h
            obtain ⟨h1, h2⟩ := h
            subst h1; subst h2
            exact ⟨[], by simp, by simp, by simp, by simp, by simp, by simp⟩
        · rw [if_neg hc2] at h
          by_cases hc4 : p.kind = PKind.varKw ∨ p.default.isSome = true
          · rw [if_pos hc4] at h
            simp only [Except.ok.injEq, Prod.mk.injEq] at h
            obtain ⟨h1, h2⟩ := h
            subst h1; subst h2
            exact ⟨[], by simp, by simp, by simp, by simp, by simp, by simp⟩
          · rw [if_neg hc4] at h
            simp at h
  | [], v :: vs, kwargs, acc, rest, h => by
      simp [bindPosPhase] at h
  | p :: ps', v :: vs, kwargs, acc, rest, h => by
      simp only [bindPosPhase] at h
      by_cases hc1 : p.kind = PKind.varKw ∨ p.kind = PKind.kwOnly
      · rw [if_pos hc1] at h
        simp at h
      · rw [if_neg hc1] at h
        by_cases hc2 : p.kind = PKind.varPos
        · rw [if_pos hc2] at h
          simp only [Except.ok.injEq, Prod.mk.injEq] at h
          obtain ⟨h1, h2⟩ := h
          subst h1; subst h2
          refine ⟨[p], by simp, by simp, ?_, ?_, ?_, ?_⟩
          · intro q hq
            simp at hq
            subst hq
            rw [hc2]
            simp
          · intro nm hnm
            simp at hnm
            subst hnm
            refine ⟨p, by simp, rfl, ?_, ?_⟩ <;> rw [hc2] <;> simp
          · intro q hq
            simp at hq
            subst hq
            simp
          · intro nm hnm
            simp at hnm
            subst hnm
            rw [List.length_cons, List.take_succ_cons, List.map_cons]
            exact List.mem_cons_self _ _
        · rw [if_neg hc2] at h
          by_cases hc3 : hasKey kwargs p.name = true ∧ ¬p.kind = PKind.posOnly
          · rw [if_pos hc3] at h
            simp at h
          · rw [if_neg hc3] at h
            cases hrec : bindPosPhase ps' vs kwargs <;> rw [hrec] at h
            · simp [exceptBind_error] at h
            · rename_i pr
              simp only [exceptBind_ok] at h
              have hacc : acc = (p.name, v) :: pr.1 := by
                have h2 := congrArg Prod.fst (Except.ok.inj h)
                simpa using h2.symm
              have hrest : rest = pr.2 := by
                have h2 := congrArg Prod.snd (Except.ok.inj h)
                simpa using h2.symm
              subst hacc; subst hrest
              obtain ⟨pre', hsplit, hsub, hnk, hprov, hcov, htake⟩ :=
                bindPosPhase_split ps' vs kwargs pr.1 pr.2 (by rw [hrec])
              refine ⟨p :: pre', by simp [hsplit], ?_, ?_, ?_, ?_, ?_⟩
              · simpa using List.Sublist.cons₂ p.name hsub
              · intro q hq
                rcases List.mem_cons.mp hq with hq | hq
                · subst hq
                  intro hk
                  exact hc1 (Or.inl hk)
                · exact hnk q hq
              · intro nm hnm
                rw [List.map_cons] at hnm
                rcases List.mem_cons.mp hnm with hnm' | hnm'
                · subst hnm'
                  exact ⟨p, by simp, rfl, fun hk => hc1 (Or.inr hk),
                    fun hk => hc1 (Or.inl hk)⟩
                · obtain ⟨q, hqmem, hqn, hq1, hq2⟩ := hprov nm hnm'
                  exact ⟨q, by simp [hqmem], hqn, hq1, hq2⟩
              · intro q hq
                rcases List.mem_cons.mp hq with hq | hq
                · subst hq
                  exact Or.inl (by simp)
                · rcases hcov q hq with hin | hvp
                  · exact Or.inl (by simp [hin])
                  · exact Or.inr hvp
              · intro nm hnm
                rw [List.map_cons] at hnm
                rcases List.mem_cons.mp hnm with hnm' | hnm'
                · subst hnm'
                  rw [List.length_cons, List.take_succ_cons, List.map_cons]
                  exact List.mem_cons_self _ _
                · rw [List.length_cons, List.take_succ_cons, List.map_cons]
                  exact List.mem_cons_of_mem _ (htake nm hnm')

theorem bindKwPhase_split :
    (ps : List Param) → (kwargs : List (String × Val)) → (kwp0 : Option String) →
    (acc : List (String × Val)) → (rem : List (String × Val)) →
    (kwpOut : Option String) →
    bindKwPhase ps kwargs kwp0 = .ok (acc, rem, kwpOut) →
    List.Sublist (acc.map Prod.fst)
        ((ps.filter fun p => p.kind != PKind.varKw).map Param.name)
    ∧ (∀ p ∈ ps, p.default.isSome = true ∨ p.kind = PKind.varPos
        ∨ p.kind = PKind.varKw ∨ p.name ∈ acc.map Prod.fst)
    ∧ (∀ nm ∈ acc.map Prod.fst, hasKey kwargs nm = true)
    ∧ (∀ nm ∈ acc.map Prod.fst,
        ∃ p ∈ ps, p.name = nm ∧ p.kind ≠ PKind.varKw ∧ p.kind ≠ PKind.varPos)
    ∧ (kwpOut = kwp0 ∨ ∃ p ∈ ps, p.kind = PKind.varKw ∧ kwpOut = Option.some p.name)
  | [], kwargs, kwp0, acc, rem, kwpOut, h => by
      simp only [bindKwPhase, Except.ok.injEq, Prod.mk.injEq] at h
      obtain ⟨h1, h2, h3⟩ := h
      subst h1; subst h2; subst h3
      exact ⟨by simp, by simp, by simp, by simp, Or.inl rfl⟩
  | p :: ps', kwargs, kwp0, acc, rem, kwpOut, h => by
      simp only [bindKwPhase] at h
      by_cases hc1 : p.kind = PKind.varKw
      · rw [if_pos hc1] at h
        obtain ⟨hsub, hcov, hkey, hprov, hout⟩ :=
          bindKwPhase_split ps' kwargs (Option.some p.name) acc rem kwpOut h
        refine ⟨?_, ?_, hkey, ?_, ?_⟩
        · have hfe : (p :: ps').filter (fun q => q.kind != PKind.varKw)
              = ps'.filter (fun q => q.kind != PKind.varKw) := by
            simp [List.filter_cons, hc1]
          rw [hfe]
          exact hsub
        · intro q hq
          rcases List.mem_cons.mp hq with hq | hq
          · subst hq
            exact Or.inr (Or.inr (Or.inl hc1))
          · exact hcov q hq
        · intro nm hnm
          obtain ⟨q, hqmem, hrest⟩ := hprov nm hnm
          exact ⟨q, List.mem_cons_of_mem p hqmem, hrest⟩
        · rcases hout with hout | ⟨q, hqmem, hqk, hqn⟩
          · exact Or.inr ⟨p, List.mem_cons_self p ps', hc1, hout⟩
          · exact Or.inr ⟨q, List.mem_cons_of_mem p hqmem, hqk, hqn⟩
      · rw [if_neg hc1] at h
        by_cases hc2 : p.kind = PKind.varPos
        · rw [if_pos hc2] at h
          obtain ⟨hsub, hcov, hkey, hprov, hout⟩ :=
            bindKwPhase_split ps' kwargs kwp0 acc rem kwpOut h
          refine ⟨?_, ?_, hkey, ?_, ?_⟩
          · have hfe : (p :: ps').filter (fun q => q.kind != PKind.varKw)
                = p :: ps'.filter (fun q => q.kind != PKind.varKw) := by
              simp [List.filter_cons, hc1]
            rw [hfe, List.map_cons]
            exact List.Sublist.cons p.name hsub
          · intro q hq
            rcases List.mem_cons.mp hq with hq | hq
            · subst hq
              exact Or.inr (Or.inl hc2)
            · exact hcov q hq
          · intro nm hnm
            obtain ⟨q, hqmem, hrest⟩ := hprov nm hnm
            exact ⟨q, List.mem_cons_of_mem p hqmem, hrest⟩
          · rcases hout with hout | ⟨q, hqmem, hqk, hqn⟩
            · exact Or.inl hout
            · exact Or.inr ⟨q, List.mem_cons_of_mem p hqmem, hqk, hqn⟩
        · rw [if_neg hc2] at h
          cases hpop : popKey kwargs p.name <;> rw [hpop] at h
          · by_cases hc3 : p.default.isNone = true
            · rw [if_pos hc3] at h
              simp at h
            · rw [if_neg hc3] at h
              obtain ⟨hsub, hcov, hkey, hprov, hout⟩ :=
                bindKwPhase_split ps' kwargs kwp0 acc rem kwpOut h
              refine ⟨?_, ?_, hkey, ?_, ?_⟩
              · have hfe : (p :: ps').filter (fun q => q.kind != PKind.varKw)
                    = p :: ps'.filter (fun q => q.kind != PKind.varKw) := by
                  simp [List.filter_cons, hc1]
                rw [hfe, List.map_cons]
                exact List.Sublist.cons p.name hsub
              · intro q hq
                rcases List.mem_cons.mp hq with hq | hq
                · rw [hq]
                  refine Or.inl ?_
                  cases hdef : p.default
                  · exact absurd (by simp [hdef]) hc3
                  · simp [hdef]
                · exact hcov q hq
              · intro nm hnm
                obtain ⟨q, hqmem, hrest⟩ := hprov nm hnm
                exact ⟨q, List.mem_cons_of_mem p hqmem, hrest⟩
              · rcases hout with hout | ⟨q, hqmem, hqk, hqn⟩
                · exact Or.inl hout
                · exact Or.inr ⟨q, List.mem_cons_of_mem p hqmem, hqk, hqn⟩
          · rename_i pv
            replace h : (if p.kind = PKind.posOnly then
                (Except.error (PyErr.typeError
                    "parameter is positional only, but was passed as a keyword")
                  : Except PyErr (List (String × Val) × List (String × Val) × Option String))
              else do
                let r ← bindKwPhase ps' pv.2 kwp0
                pure ((p.name, pv.1) :: r.1, r.2.1, r.2.2)) = Except.ok (acc, rem, kwpOut) := h
            by_cases hc4 : p.kind = PKind.posOnly
            · rw [if_pos hc4] at h
              simp at h
            · rw [if_neg hc4] at h
              cases hrec : bindKwPhase ps' pv.2 kwp0 <;> rw [hrec] at h
              · simp [exceptBind_error] at h
              · rename_i tri
                simp only [exceptBind_ok] at h
                have hacc : acc = (p.name, pv.1) :: tri.1 := by
                  have h2 := congrArg (fun x => x.1) (Except.ok.inj h)
                  simpa using h2.symm
                have hrem : rem = tri.2.1 := by
                  have h2 := congrArg (fun x => x.2.1) (Except.ok.inj h)
                  simpa using h2.symm
                have hout0 : kwpOut = tri.2.2 := by
                  have h2 := congrArg (fun x => x.2.2) (Except.ok.inj h)
                  simpa using h2.symm
                subst hacc; subst hrem; subst hout0
                obtain ⟨hsub, hcov, hkey, hprov, hout⟩ :=
                  bindKwPhase_split ps' pv.2 kwp0 tri.1 tri.2.1 tri.2.2 (by rw [hrec])
                refine ⟨?_, ?_, ?_, ?_, ?_⟩
                · have hfe : (p :: ps').filter (fun q => q.kind != PKind.varKw)
                      = p :: ps'.filter (fun q => q.kind != PKind.varKw) := by
                    simp [List.filter_cons, hc1]
                  rw [hfe, List.map_cons, List.map_cons]
                  exact List.Sublist.cons₂ p.name hsub
                · intro q hq
                  rcases List.mem_cons.mp hq with hq | hq
                  · subst hq
                    exact Or.inr (Or.inr (Or.inr (by simp)))
                  · rcases hcov q hq with h1 | h2 | h3 | h4
                    · exact Or.inl h1
                    · exact Or.inr (Or.inl h2)
                    · exact Or.inr (Or.inr (Or.inl h3))
                    · exact Or.inr (Or.inr (Or.inr (by simp [h4])))
                · intro nm hnm
                  rw [List.map_cons] at hnm
                  rcases List.mem_cons.mp hnm with hnm' | hnm'
                  · subst hnm'
                    exact popKey_found kwargs p.name pv.1 pv.2 (by rw [hpop])
                  · exact popKey_subset kwargs p.name pv.1 pv.2 (by rw [hpop]) nm
                      (hkey nm hnm')
                · intro nm hnm
                  rw [List.map_cons] at hnm
                  rcases List.mem_cons.mp hnm with hnm' | hnm'
                  · subst hnm'
                    exact ⟨p, List.mem_cons_self p ps', rfl, hc1, hc2⟩
                  · obtain ⟨q, hqmem, hrest⟩ := hprov nm hnm'
                    exact ⟨q, List.mem_cons_of_mem p hqmem, hrest⟩
                · rcases hout with hout | ⟨q, hqmem, hqk, hqn⟩
                  · exact Or.inl hout
                  · exact Or.inr ⟨q, List.mem_cons_of_mem p hqmem, hqk, hqn⟩

/-- C3 (amended): for introspectable callables, `bind_arguments` returns an
ordered mapping in parameter declaration order with at most one entry per
formal parameter (the keys are a duplicate-free sublist of the declared
names), containing an entry for every required parameter; parameters not
bound by the supplied arguments are absent — a keyword-only parameter
whose name is not among the supplied keywords never appears, and neither
does any parameter beyond the positional arguments' reach whose name is
not among the supplied keywords, whatever its default: defaults are not
filled in. -/
theorem C3_binding_order (ps : List Param) (args : List Val)
    (kwargs : List (String × Val)) (m : List (String × Val))
    (hnd : (ps.map Param.name).Nodup)
    (hvk : ∀ p ∈ ps.dropLast, p.kind ≠ PKind.varKw)
    (h : ast_trace.bind_arguments (.withSig ps) args kwargs = .ok m) :
    List.Sublist (m.map Prod.fst) (ps.map Param.name)
    ∧ (m.map Prod.fst).Nodup
    ∧ (∀ p ∈ ps,
        (p.kind = PKind.posOnly ∨ p.kind = PKind.posOrKw ∨ p.kind = PKind.kwOnly) →
        p.default = Option.none → p.name ∈ m.map Prod.fst)
    ∧ (∀ p ∈ ps, p.kind = PKind.kwOnly → hasKey kwargs p.name = false →
        p.name ∉ m.map Prod.fst)
    ∧ (∀ p ∈ ps.drop args.length,
        (p.kind = PKind.posOnly ∨ p.kind = PKind.posOrKw ∨ p.kind = PKind.kwOnly) →
        hasKey kwargs p.name = false → p.name ∉ m.map Prod.fst) := by
  have hsb : sigBind ps args kwargs = .ok m := h
  simp only [sigBind] at hsb
  cases h1 : bindPosPhase ps args kwargs <;> rw [h1] at hsb
  · simp [exceptBind_error] at hsb
  rename_i pr1
  simp only [exceptBind_ok] at hsb
  cases h2 : bindKwPhase pr1.2 kwargs Option.none <;> rw [h2] at hsb
  · simp [exceptBind_error] at hsb
  rename_i pr2
  simp only [exceptBind_ok] at hsb
  replace hsb : (if pr2.2.1.isEmpty then
      (Except.ok (pr1.1 ++ pr2.1) : Except PyErr (List (String × Val)))
    else match pr2.2.2 with
      | Option.some n => Except.ok (pr1.1 ++ pr2.1 ++ [(n, Val.dict pr2.2.1)])
      | Option.none => .error (.typeError "got an unexpected keyword argument"))
    = .ok m := hsb
  obtain ⟨pre, hsplit, hsub1, hnk1, hprov1, hcov1, htake1⟩ :=
    bindPosPhase_split ps args kwargs pr1.1 pr1.2 (by rw [h1])
  have hdisj : List.Disjoint ((ps.take args.length).map Param.name)
      ((ps.drop args.length).map Param.name) := by
    have hnd' := hnd
    rw [← List.take_append_drop args.length ps, List.map_append] at hnd'
    exact (List.nodup_append.mp hnd').2.2
  obtain ⟨hsub2, hcov2, hkey2, hprov2, hout2⟩ :=
    bindKwPhase_split pr1.2 kwargs Option.none pr2.1 pr2.2.1 pr2.2.2 (by rw [h2])
  have hnames : ps.map Param.name = pre.map Param.name ++ pr1.2.map Param.name := by
    rw [hsplit, List.map_append]
  by_cases hrem : pr2.2.1.isEmpty = true
  · rw [if_pos hrem] at hsb
    have hm : m = pr1.1 ++ pr2.1 := by
      simpa using hsb.symm
    subst hm
    have hkeys : (pr1.1 ++ pr2.1).map Prod.fst
        = pr1.1.map Prod.fst ++ pr2.1.map Prod.fst := List.map_append _ _ _
    have hB : List.Sublist (pr2.1.map Prod.fst) (pr1.2.map Param.name) :=
      hsub2.trans (List.Sublist.map Param.name (List.filter_sublist _))
    have conj1 : List.Sublist ((pr1.1 ++ pr2.1).map Prod.fst) (ps.map Param.name) := by
      rw [hkeys, hnames]
      exact hsub1.append hB
    refine ⟨conj1, hnd.sublist conj1, ?_, ?_, ?_⟩
    · intro p hp hkind hdef
      rw [hkeys]
      rw [hsplit] at hp
      rcases List.mem_append.mp hp with hp | hp
      · rcases hcov1 p hp with hin | hvp
        · exact List.mem_append_left _ hin
        · rcases hkind with hk | hk | hk <;> rw [hk] at hvp <;> cases hvp
      · rcases hcov2 p hp with hs | hs | hs | hs
        · rw [hdef] at hs
          cases hs
        · rcases hkind with hk | hk | hk <;> rw [hk] at hs <;> cases hs
        · rcases hkind with hk | hk | hk <;> rw [hk] at hs <;> cases hs
        · exact List.mem_append_right _ hs
    · intro p hp hko hnk hmem
      rw [hkeys] at hmem
      rcases List.mem_append.mp hmem with hmem | hmem
      · obtain ⟨q, hqpre, hqname, hqko, _⟩ := hprov1 p.name hmem
        have hqps : q ∈ ps := by
          rw [hsplit]
          exact List.mem_append_left _ hqpre
        have : q = p := List.inj_on_of_nodup_map hnd hqps hp hqname
        rw [this] at hqko
        exact hqko hko
      · rw [hkey2 p.name hmem] at hnk
        cases hnk
    · intro p hp hkind hnk hmem
      rw [hkeys] at hmem
      rcases List.mem_append.mp hmem with hmem | hmem
      · exact hdisj (htake1 p.name hmem) (List.mem_map_of_mem Param.name hp)
      · rw [hkey2 p.name hmem] at hnk
        cases hnk
  · rw [if_neg hrem] at hsb
    cases hkp : pr2.2.2 <;> rw [hkp] at hsb
    · simp at hsb
    rename_i n
    have hm : m = pr1.1 ++ pr2.1 ++ [(n, Val.dict pr2.2.1)] := by
      simpa using hsb.symm
    subst hm
    rcases hout2 with hout | ⟨q, hqrest, hqk, hqn⟩
    · rw [hkp] at hout
      cases hout
    rw [hkp] at hqn
    have hqname : n = q.name := by
      simpa using hqn
    subst hqname
    have hqps : q ∈ ps := by
      rw [hsplit]
      exact List.mem_append_right _ hqrest
    have hpsne : ps ≠ [] := List.ne_nil_of_mem hqps
    have hqnotdl : q ∉ ps.dropLast := fun hmem => hvk q hmem hqk
    have hqlast : q = ps.getLast hpsne := by
      have := List.dropLast_append_getLast hpsne
      rcases List.mem_append.mp (this ▸ hqps) with hmem | hmem
      · exact absurd hmem hqnotdl
      · simpa using hmem
    have hps : ps.dropLast ++ [q] = ps := by
      rw [hqlast]
      exact List.dropLast_append_getLast hpsne
    have hrne : pr1.2 ≠ [] := List.ne_nil_of_mem hqrest
    have hinit : ps.dropLast = pre ++ pr1.2.dropLast := by
      rw [hsplit]
      exact List.dropLast_append_of_ne_nil pre hrne
    have hrdecomp : pr1.2.dropLast ++ [q] = pr1.2 := by
      have hE : pre ++ (pr1.2.dropLast ++ [q]) = pre ++ pr1.2 := by
        rw [← List.append_assoc, ← hinit, hps, hsplit]
      exact List.append_cancel_left hE
    have hfilter : pr1.2.filter (fun p => p.kind != PKind.varKw)
        = pr1.2.dropLast := by
      conv_lhs => rw [← hrdecomp]
      rw [List.filter_append]
      have h1 : pr1.2.dropLast.filter (fun p => p.kind != PKind.varKw)
          = pr1.2.dropLast := by
        refine List.filter_eq_self.mpr ?_
        intro x hx
        have hxdl : x ∈ ps.dropLast := by
          rw [hinit]
          exact List.mem_append_right _ hx
        simpa using hvk x hxdl
      have h2 : List.filter (fun p => p.kind != PKind.varKw) [q] = [] := by
        simp [List.filter_cons, hqk]
      rw [h1, h2, List.append_nil]
    have hB : List.Sublist (pr2.1.map Prod.fst) (pr1.2.dropLast.map Param.name) := by
      rw [hfilter] at hsub2
      exact hsub2
    have hkeys : (pr1.1 ++ pr2.1 ++ [(q.name, Val.dict pr2.2.1)]).map Prod.fst
        = (pr1.1.map Prod.fst ++ pr2.1.map Prod.fst) ++ [q.name] := by
      simp
    have conj1 : List.Sublist ((pr1.1 ++ pr2.1 ++ [(q.name, Val.dict pr2.2.1)]).map Prod.fst)
        (ps.map Param.name) := by
      rw [hkeys]
      have hbig : List.Sublist ((pr1.1.map Prod.fst ++ pr2.1.map Prod.fst) ++ [q.name])
          ((pre.map Param.name ++ pr1.2.dropLast.map Param.name) ++ [q.name]) :=
        (hsub1.append hB).append (List.Sublist.refl _)
      have heq : (pre.map Param.name ++ pr1.2.dropLast.map Param.name) ++ [q.name]
          = ps.map Param.name := by
        rw [← List.map_append, ← hinit]
        have : (ps.dropLast.map Param.name) ++ [q.name]
            = (ps.dropLast ++ [q]).map Param.name := by
          simp
        rw [this, hps]
      rw [heq] at hbig
      exact hbig
    refine ⟨conj1, hnd.sublist conj1, ?_, ?_, ?_⟩
    · intro p hp hkind hdef
      rw [hkeys]
      rw [hsplit] at hp
      rcases List.mem_append.mp hp with hp | hp
      · rcases hcov1 p hp with hin | hvp
        · exact List.mem_append_left _ (List.mem_append_left _ hin)
        · rcases hkind with hk | hk | hk <;> rw [hk] at hvp <;> cases hvp
      · rcases hcov2 p hp with hs | hs | hs | hs
        · rw [hdef] at hs
          cases hs
        · rcases hkind with hk | hk | hk <;> rw [hk] at hs <;> cases hs
        · rcases hkind with hk | hk | hk <;> rw [hk] at hs <;> cases hs
        · exact List.mem_append_left _ (List.mem_append_right _ hs)
    · intro p hp hko hnk hmem
      rw [hkeys] at hmem
      rcases List.mem_append.mp hmem with hmem | hmem
      · rcases List.mem_append.mp hmem with hmem' | hmem'
        · obtain ⟨r, hrpre, hrname, hrko, _⟩ := hprov1 p.name hmem'
          have hrps : r ∈ ps := by
            rw [hsplit]
            exact List.mem_append_left _ hrpre
          have : r = p := List.inj_on_of_nodup_map hnd hrps hp hrname
          rw [this] at hrko
          exact hrko hko
        · rw [hkey2 p.name hmem'] at hnk
          cases hnk
      · have hpn : p.name = q.name := by
          simpa using hmem
        have : q = p := List.inj_on_of_nodup_map hnd hqps hp hpn.symm
        rw [← this] at hko
        rw [hqk] at hko
        cases hko
    · intro p hp hkind hnk hmem
      have hpps : p ∈ ps := List.mem_of_mem_drop hp
      rw [hkeys] at hmem
      rcases List.mem_append.mp hmem with hmem | hmem
      · rcases List.mem_append.mp hmem with hmem' | hmem'
        · exact hdisj (htake1 p.name hmem') (List.mem_map_of_mem Param.name hp)
        · rw [hkey2 p.name hmem'] at hnk
          cases hnk
      · have hpn : p.name = q.name := by
          simpa using hmem
        have hqp : q = p := List.inj_on_of_nodup_map hnd hqps hpps hpn.symm
        rcases hkind with hk | hk | hk <;> rw [← hqp, hqk] at hk <;> cases hk

/-- C3 counterexample: for a signature `(x, y=1)` bound with the single
positional argument 5, `bind_arguments` returns only `{"x": 5}` — the
omitted optional parameter `y` is absent, its default is not filled in,
and the mapping does not have one entry per formal parameter. -/
theorem C3_counterexample :
    ast_trace.bind_arguments
      (.withSig [⟨"x", .posOrKw, Option.none⟩, ⟨"y", .posOrKw, Option.some (.int 1)⟩])
      [.int 5] []
      = .ok [("x", .int 5)]
    ∧ "y" ∉ ([("x", Val.int 5)].map Prod.fst)
    ∧ ([("x", Val.int 5)].map Prod.fst).length
        ≠ ([⟨"x", .posOrKw, Option.none⟩,
            ⟨"y", .posOrKw, Option.some (.int 1)⟩] : List Param).length :=
  ⟨rfl, by decide, by decide⟩

/-- Witness for C3 on the signature `(x, y=1, *, z=2)` bound with one
positional argument: the keys are exactly ["x"], in declaration order, and
both the optional `y` (beyond the positional reach, not supplied by
keyword) and the keyword-only `z` are absent. -/
theorem C3_binding_order_witness :
    List.Sublist ([("x", Val.int 5)].map Prod.fst)
        (([⟨"x", .posOrKw, Option.none⟩, ⟨"y", .posOrKw, Option.some (.int 1)⟩,
           ⟨"z", .kwOnly, Option.some (.int 2)⟩] : List Param).map Param.name)
    ∧ (([("x", Val.int 5)] : List (String × Val)).map Prod.fst).Nodup
    ∧ (∀ p ∈ ([⟨"x", .posOrKw, Option.none⟩, ⟨"y", .posOrKw, Option.some (.int 1)⟩,
           ⟨"z", .kwOnly, Option.some (.int 2)⟩] : List Param),
        (p.kind = PKind.posOnly ∨ p.kind = PKind.posOrKw ∨ p.kind = PKind.kwOnly) →
        p.default = Option.none → p.name ∈ ([("x", Val.int 5)].map Prod.fst))
    ∧ (∀ p ∈ ([⟨"x", .posOrKw, Option.none⟩, ⟨"y", .posOrKw, Option.some (.int 1)⟩,
           ⟨"z", .kwOnly, Option.some (.int 2)⟩] : List Param),
        p.kind = PKind.kwOnly → hasKey [] p.name = false →
        p.name ∉ ([("x", Val.int 5)].map Prod.fst))
    ∧ (∀ p ∈ ([⟨"x", .posOrKw, Option.none⟩, ⟨"y", .posOrKw, Option.some (.int 1)⟩,
           ⟨"z", .kwOnly, Option.some (.int 2)⟩] : List Param).drop
          ([Val.int 5] : List Val).length,
        (p.kind = PKind.posOnly ∨ p.kind = PKind.posOrKw ∨ p.kind = PKind.kwOnly) →
        hasKey [] p.name = false →
        p.name ∉ ([("x", Val.int 5)].map Prod.fst)) :=
  C3_binding_order
    [⟨"x", .posOrKw, Option.none⟩, ⟨"y", .posOrKw, Option.some (.int 1)⟩,
     ⟨"z", .kwOnly, Option.some (.int 2)⟩]
    [.int 5] [] [("x", .int 5)] (by decide) (by decide) rfl
